import Mathlib

/-!
Shallow embedding of the Media Management Tools "arr folder renamer"
(src/arr_folder_renamer.py) together with proofs about the claims of the
specification.  Strings are modelled as Lean `String`s; the Python string
operations used by the script (`lower`, `strip`, `rstrip`, `replace`,
`split`, the token regex, dictionaries) are re-implemented below on
`List Char` and wrapped.  External I/O (the Radarr/Sonarr HTTP API) is
modelled by explicit oracle parameters.
-/

set_option maxRecDepth 40000

namespace MMT

/-- Opening brace character (written numerically). -/
def obrace : Char := Char.ofNat 123

/-- Closing brace character (written numerically). -/
def cbrace : Char := Char.ofNat 125

/-- Model of Python `str.lower` for the ASCII range. -/
def lowerChar (c : Char) : Char :=
  if 'A' ≤ c ∧ c ≤ 'Z' then Char.ofNat (c.toNat + 32) else c

/-- Model of Python `str.upper` (single character, ASCII range). -/
def upperChar (c : Char) : Char :=
  if 'a' ≤ c ∧ c ≤ 'z' then Char.ofNat (c.toNat - 32) else c

def lowerL (s : List Char) : List Char := s.map lowerChar

/-- Whitespace characters recognised by Python `str.strip` (common subset). -/
def isSpaceChar (c : Char) : Bool := c = ' ' ∨ c = '\t' ∨ c = '\n' ∨ c = '\r'

/-- Model of Python `str.strip()` (no argument: strip whitespace). -/
def stripL (s : List Char) : List Char :=
  ((s.dropWhile isSpaceChar).reverse.dropWhile isSpaceChar).reverse

/-- Model of Python `s.rstrip("/")`: drop all trailing slashes. -/
def rstripSlashL (s : List Char) : List Char :=
  (s.reverse.dropWhile (fun c => c = '/')).reverse

/-- Model of Python `s.rstrip("/")` on `String`. -/
def rstripSlash (s : String) : String := ⟨rstripSlashL s.data⟩

/-- Model of Python `s.strip(chars)` for the brace character set, as used by
`token.strip` in `extract_token_values`. -/
def stripBracesL (s : List Char) : List Char :=
  ((s.dropWhile (fun c => c = obrace ∨ c = cbrace)).reverse.dropWhile
    (fun c => c = obrace ∨ c = cbrace)).reverse

/-- Model of the Python containment test `pat in s` on character lists. -/
def containsL (pat : List Char) : List Char → Bool
  | [] => pat.isPrefixOf []
  | c :: cs => pat.isPrefixOf (c :: cs) || containsL pat cs

/-- Model of `s.split(pat)[0]` for a nonempty separator: the prefix of `s`
before the first occurrence of `pat` (all of `s` when `pat` does not occur). -/
def splitFirstL (pat : List Char) : List Char → List Char
  | [] => []
  | c :: cs => if pat.isPrefixOf (c :: cs) then [] else c :: splitFirstL pat cs

/-- Worker for `replaceL`: a positive first argument consumes that many
characters (the tail of a match already emitted). -/
def replaceAux (pat rep : List Char) : Nat → List Char → List Char
  | _, [] => []
  | n + 1, _ :: cs => replaceAux pat rep n cs
  | 0, c :: cs =>
    if pat ≠ [] ∧ pat.isPrefixOf (c :: cs) then
      rep ++ replaceAux pat rep (pat.length - 1) cs
    else c :: replaceAux pat rep 0 cs

/-- Model of Python `s.replace(pat, rep)`: replace all non-overlapping
occurrences of `pat`, scanning left to right.  The script only ever calls
it with a nonempty `pat`; for `pat = []` this model returns `s` unchanged. -/
def replaceL (pat rep s : List Char) : List Char := replaceAux pat rep 0 s

/-- Worker for `findTokensL`: a positive first argument consumes that many
characters (the tail of a match already emitted). -/
def findTokensAux : Nat → List Char → List (List Char)
  | _, [] => []
  | n + 1, _ :: rest => findTokensAux n rest
  | 0, c :: rest =>
    if c = obrace then
      let inner := rest.takeWhile (fun d => d ≠ obrace ∧ d ≠ cbrace)
      if inner ≠ [] ∧ (rest.drop inner.length).head? = some cbrace then
        (obrace :: inner ++ [cbrace]) :: findTokensAux (inner.length + 1) rest
      else findTokensAux 0 rest
    else findTokensAux 0 rest

/-- Model of the token regex of `get_folder_name_tokens`: all non-overlapping
matches of a brace, one or more non-brace characters, and a closing brace,
scanning left to right. -/
def findTokensL (s : List Char) : List (List Char) := findTokensAux 0 s

/-- No brace character occurs in the list. -/
def braceFreeL (s : List Char) : Bool := s.all (fun c => c ≠ obrace ∧ c ≠ cbrace)

/-- ASCII alphanumeric test (the character class of the cleaning regexes). -/
def isAlnumChar (c : Char) : Bool :=
  ('a' ≤ c ∧ c ≤ 'z') ∨ ('A' ≤ c ∧ c ≤ 'Z') ∨ ('0' ≤ c ∧ c ≤ '9')

/-- ASCII alphanumeric-or-space test (character class of `generate_clean_title`). -/
def isAlnumSpace (c : Char) : Bool := isAlnumChar c ∨ c = ' '

/-- ASCII letter test. -/
def isAlphaChar (c : Char) : Bool := ('a' ≤ c ∧ c ≤ 'z') ∨ ('A' ≤ c ∧ c ≤ 'Z')

/-- Model of the `unidecode` library on single characters: a transliteration
table for the common accented Latin letters the script may meet, identity on
ASCII and anything else. -/
def unidecodeChar (c : Char) : Char :=
  if c = 'é' ∨ c = 'è' ∨ c = 'ê' ∨ c = 'ë' then 'e'
  else if c = 'à' ∨ c = 'â' ∨ c = 'ä' then 'a'
  else if c = 'î' ∨ c = 'ï' then 'i'
  else if c = 'ô' ∨ c = 'ö' then 'o'
  else if c = 'ù' ∨ c = 'û' ∨ c = 'ü' then 'u'
  else if c = 'ç' then 'c'
  else c

def unidecodeL (s : List Char) : List Char := s.map unidecodeChar

/-- Worker for `collapseSpacesL`: the flag records whether the previous
character was whitespace (inside a run). -/
def collapseSpacesAux : Bool → List Char → List Char
  | _, [] => []
  | inRun, c :: cs =>
    if isSpaceChar c then
      if inRun then collapseSpacesAux true cs else ' ' :: collapseSpacesAux true cs
    else c :: collapseSpacesAux false cs

/-- Model of `re.sub(r"\s+", " ", s)`: collapse every whitespace run to one
space. -/
def collapseSpacesL (s : List Char) : List Char := collapseSpacesAux false s

/-- Model of Python `str.title()`: letters starting an alphabetic run are
upper-cased, other letters lower-cased. -/
def titleCaseAux : Bool → List Char → List Char
  | _, [] => []
  | prevAlpha, c :: cs =>
    if isAlphaChar c then
      (if prevAlpha then lowerChar c else upperChar c) :: titleCaseAux true cs
    else c :: titleCaseAux false cs

def titleCaseL (s : List Char) : List Char := titleCaseAux false s

/-! Python dictionaries with string keys are modelled as association lists in
insertion order: an insert of a present key updates it in place, an insert of
an absent key appends. -/

def pyDictInsertL (d : List (String × String)) (k v : String) : List (String × String) :=
  if d.any (fun p => p.1 = k) then d.map (fun p => if p.1 = k then (k, v) else p)
  else d ++ [(k, v)]

/-- Membership test `k in d` of a Python dictionary. -/
def dictContains (d : List (String × String)) (k : String) : Bool :=
  d.any (fun p => p.1 = k)

/-- Lookup `d.get(k)` of a Python dictionary. -/
def dictGet (d : List (String × String)) (k : String) : Option String :=
  (d.find? (fun p => p.1 = k)).map (fun p => p.2)

/-! The data model: the fields of the Radarr movie record and of the Sonarr
series record that the script reads.  `Option` fields model dictionary keys
that may be missing (`dict.get`). -/

structure Movie where
  id : Int
  title : Option String
  year : Option Int
  tmdbId : Option Int
  imdbId : Option String
  path : String
  rootFolderPath : String
deriving DecidableEq

structure Series where
  id : Int
  title : Option String
  year : Option Int
  firstAired : Option String
  imdbId : Option String
  tvdbId : Option Int
  path : Option String
  rootFolderPath : Option String
deriving DecidableEq

/-- Embedding of `generate_clean_title`: lower-case, drop characters outside
alphanumeric-and-space, collapse whitespace, strip, then title-case. -/
def generate_clean_title (title : String) : String :=
  if title.data = [] then "Unknown-Title"
  else ⟨titleCaseL (stripL (collapseSpacesL ((lowerL title.data).filter isAlnumSpace)))⟩

/-- Embedding of `get_folder_name_tokens`: the brace-delimited tokens of the
folder format, in order. -/
def get_folder_name_tokens (fmt : String) : List String :=
  (findTokensL fmt.data).map (fun l => (⟨l⟩ : String))

/-- The token-to-value resolution of `extract_token_values` for one token:
a fixed map from token name to movie field, falsy field values (missing key,
`0`, empty string) and unknown token names resolving to the
`Unknown-<token>` sentinel. -/
def resolveToken (m : Movie) (token : String) : String :=
  let clean : String := ⟨stripBracesL token.data⟩
  if clean = "Movie CleanTitle" then generate_clean_title (m.title.getD "Unknown Title")
  else if clean = "Release Year" then
    match m.year with
    | some y => if y = 0 then "Unknown-" ++ clean else toString y
    | none => "Unknown-" ++ clean
  else if clean = "TmdbId" then
    match m.tmdbId with
    | some v => if v = 0 then "Unknown-" ++ clean else toString v
    | none => "Unknown-" ++ clean
  else if clean = "ImdbId" then
    match m.imdbId with
    | some v => if v = "" then "Unknown-" ++ clean else v
    | none => "Unknown-" ++ clean
  else "Unknown-" ++ clean

/-- Embedding of `extract_token_values`: build the token-value dictionary in
token order. -/
def extract_token_values (m : Movie) (tokens : List String) : List (String × String) :=
  tokens.foldl (fun acc t => pyDictInsertL acc t (resolveToken m t)) []

/-- The substitution loop shared by `generate_new_path` and
`generate_series_path`: each token whose value contains `Unknown` is replaced
by the empty string, every other token by its value. -/
def substituteTokens (fmt : String) (tvs : List (String × String)) : String :=
  tvs.foldl
    (fun acc p =>
      if containsL "Unknown".data p.2.data then ⟨replaceL p.1.data [] acc.data⟩
      else ⟨replaceL p.1.data p.2.data acc.data⟩)
    fmt

/-- Embedding of `generate_new_path` (Radarr): substitute, prepend the root
folder unless already a prefix, collapse `//` once, and force one trailing
slash. -/
def generate_new_path (root_folder fmt : String) (tvs : List (String × String)) : String :=
  let new_path := substituteTokens fmt tvs
  let final_path :=
    if root_folder.data.isPrefixOf new_path.data then
      (⟨replaceL ['/', '/'] ['/'] new_path.data⟩ : String)
    else
      (⟨replaceL ['/', '/'] ['/'] (root_folder.data ++ '/' :: new_path.data)⟩ : String)
  ⟨rstripSlashL final_path.data ++ ['/']⟩

/-- Embedding of `generate_series_path` (Sonarr): substitute, then join
`root.rstrip("/") + "/" + path.rstrip("/") + "/"`. -/
def generate_series_path (root_folder fmt : String) (tvs : List (String × String)) : String :=
  let new_path := substituteTokens fmt tvs
  ⟨rstripSlashL root_folder.data ++ '/' :: (rstripSlashL new_path.data ++ ['/'])⟩

/-- Embedding of `extract_series_token_values`: the fixed Sonarr token map
(title with the year appended unless already present, catalog IDs with
`Unknown-` sentinels for missing keys). -/
def extract_series_token_values (s : Series) : List (String × String) :=
  let title := s.title.getD "Unknown"
  let yearStr : String :=
    match s.year with
    | some y => toString y
    | none => ⟨(s.firstAired.getD "0000").data.take 4⟩
  let title_year :=
    if containsL ('(' :: yearStr.data ++ [')']) title.data then title
    else title ++ " (" ++ yearStr ++ ")"
  [((⟨obrace :: "Series TitleYear".data ++ [cbrace]⟩ : String), title_year),
   ((⟨obrace :: "ImdbId".data ++ [cbrace]⟩ : String), s.imdbId.getD "Unknown-ImdbId"),
   ((⟨obrace :: "TvdbId".data ++ [cbrace]⟩ : String),
     match s.tvdbId with
     | some v => toString v
     | none => "Unknown-TvdbId")]

/-! The Radarr per-entry decision of the `process_radarr` loop body
(cache membership, cached-path comparison, live-path comparison), and the
loop itself with the `WORK_LIMIT` cap.  The boolean outcome of
`update_movie_path` is an oracle parameter. -/

/-- The new path generated for a movie inside `process_radarr`. -/
def radarrNewPath (fmt : String) (tokens : List String) (m : Movie) : String :=
  generate_new_path m.rootFolderPath fmt (extract_token_values m tokens)

inductive RadarrDecision where
  | skipCacheMember
  | skipCachePath
  | skipAlreadyCorrect
  | doUpdate
deriving DecidableEq

/-- Embedding of the decision sequence of one `process_radarr` iteration:
skip when the ID is a cache key; otherwise generate the path, skip when a
non-empty cached path equals it (dead for uncached IDs), skip and cache when
the live path equals it, otherwise call `update_movie_path`. -/
def radarrDecision (cache : List (String × String)) (fmt : String) (tokens : List String)
    (m : Movie) : RadarrDecision :=
  let movieId := toString m.id
  if dictContains cache movieId then .skipCacheMember
  else
    let newPath := radarrNewPath fmt tokens m
    let cachedOk : Bool :=
      match dictGet cache movieId with
      | some p => p ≠ "" ∧ p = rstripSlash newPath
      | none => false
    if cachedOk then .skipCachePath
    else if rstripSlash m.path = rstripSlash newPath then .skipAlreadyCorrect
    else .doUpdate

structure RState where
  cache : List (String × String)
  count : Nat
  processed : List Movie
  attempts : Nat
deriving DecidableEq

/-- One `process_radarr` iteration body: act on the decision; on an update,
write the cache with the generated path (stripped) whether the update
succeeded or not, and count only successes. -/
def radarrStep (fmt : String) (tokens : List String) (upd : Movie → String → Bool)
    (st : RState) (m : Movie) : RState :=
  match radarrDecision st.cache fmt tokens m with
  | .skipCacheMember => st
  | .skipCachePath => st
  | .skipAlreadyCorrect =>
    { st with cache :=
        pyDictInsertL st.cache (toString m.id) (rstripSlash (radarrNewPath fmt tokens m)) }
  | .doUpdate =>
    let newPath := radarrNewPath fmt tokens m
    let cache2 := pyDictInsertL st.cache (toString m.id) (rstripSlash newPath)
    if upd m newPath then
      { cache := cache2, count := st.count + 1, processed := st.processed ++ [m],
        attempts := st.attempts + 1 }
    else
      { cache := cache2, count := st.count, processed := st.processed,
        attempts := st.attempts + 1 }

/-- The `process_radarr` loop over the movie list, stopping when a positive
`WORK_LIMIT` has been reached by the success counter; returns the final state
and the movies never reached. -/
def radarrLoop (workLimit : Int) (fmt : String) (tokens : List String)
    (upd : Movie → String → Bool) : RState → List Movie → RState × List Movie
  | st, [] => (st, [])
  | st, m :: rest =>
    if workLimit > 0 ∧ (st.count : Int) ≥ workLimit then (st, m :: rest)
    else radarrLoop workLimit fmt tokens upd (radarrStep fmt tokens upd st m) rest

/-! The Sonarr per-entry decision of `process_sonarr`: cache membership,
root-folder validation, live-path comparison. -/

/-- The new path generated for a series inside `process_sonarr`. -/
def sonarrNewPath (fmt : String) (s : Series) : String :=
  generate_series_path (rstripSlash (s.rootFolderPath.getD "/media/Series")) fmt
    (extract_series_token_values s)

inductive SonarrDecision where
  | skipCacheMember
  | skipRootConflict
  | skipAlreadyCorrect
  | doUpdate
deriving DecidableEq

/-- Embedding of the decision sequence of one `process_sonarr` iteration. -/
def sonarrDecision (cache : List (String × String)) (rootFolders : List String)
    (fmt : String) (s : Series) : SonarrDecision :=
  let seriesId := toString s.id
  if dictContains cache seriesId then .skipCacheMember
  else
    let rfp := rstripSlash (s.rootFolderPath.getD "/media/Series")
    if ¬ rootFolders.any (fun f => rfp = rstripSlash f) then .skipRootConflict
    else
      let newPath := sonarrNewPath fmt s
      if rstripSlash (s.path.getD "") = rstripSlash newPath then .skipAlreadyCorrect
      else .doUpdate

structure SState where
  cache : List (String × String)
  count : Nat
  processed : List Series
deriving DecidableEq

/-- One `process_sonarr` iteration body: on an update the cache is written
with the generated path (stripped) regardless of the result. -/
def sonarrStep (rootFolders : List String) (fmt : String)
    (upd : Series → String → Bool) (st : SState) (s : Series) : SState :=
  match sonarrDecision st.cache rootFolders fmt s with
  | .skipCacheMember => st
  | .skipRootConflict => st
  | .skipAlreadyCorrect =>
    { st with cache :=
        pyDictInsertL st.cache (toString s.id) (rstripSlash (sonarrNewPath fmt s)) }
  | .doUpdate =>
    let newPath := sonarrNewPath fmt s
    let cache2 := pyDictInsertL st.cache (toString s.id) (rstripSlash newPath)
    if upd s newPath && !(st.processed.contains s) then
      { cache := cache2, count := st.count + 1, processed := st.processed ++ [s] }
    else
      { cache := cache2, count := st.count, processed := st.processed }

/-! Embedding of `update_movie_path` (the change orchestrator for Radarr).
The two `get_movie_details` fetches, the root-folder listing, the PUT outcome,
the `verify_movie_files` polls and the `wait_for_movie_moves` result are
oracle parameters.  A `retval` of `none` models a Python exception escaping
the function: the `return true` NameError on an invalid quality profile, the
attribute error of `.get` on a failed first fetch, and the NameError on the
undefined `processed_movies` in the confirmed-move branch (reached after one
`force_rescan` call). -/

/-- The fields of the fetched movie record that `update_movie_path` reads.
`movie_details["id"]`, `["title"]`, `["monitored"]` and `["tmdbId"]` are
required keys; the others are read with `.get` defaults. -/
structure MovieDetails where
  id : Int
  title : String
  sortTitle : String
  year : Option Int
  path : String
  monitored : Bool
  qualityProfileId : Int
  metadataProfileId : Option Int
  tmdbId : Int
  imdbId : String
deriving DecidableEq

/-- The JSON body of the movie update PUT. -/
structure RadarrPayload where
  id : Int
  title : String
  sortTitle : String
  year : Option Int
  path : String
  monitored : Bool
  qualityProfileId : Int
  metadataProfileId : Option Int
  tmdbId : Int
  imdbId : String
deriving DecidableEq

/-- The payload built at step 2 of `update_movie_path`: every field copied
from the fetched record, the path replaced by the new path. -/
def mkRadarrPayload (d : MovieDetails) (newPath : String) : RadarrPayload :=
  { id := d.id, title := d.title, sortTitle := d.sortTitle, year := d.year,
    path := newPath, monitored := d.monitored,
    qualityProfileId := d.qualityProfileId,
    metadataProfileId := d.metadataProfileId, tmdbId := d.tmdbId,
    imdbId := d.imdbId }

structure UpdateOracles where
  details : Option MovieDetails
  rootFolders : List String
  putOk : Bool
  verify : Nat → Bool
  waitOk : Bool

structure UpdateResult where
  retval : Option Bool
  payload : Option RadarrPayload
  rescans : List Int
deriving DecidableEq

/-- The post-PUT verification loop of `update_movie_path` (three attempts of
`verify_movie_files`); on a detected move with a confirmed
`wait_for_movie_moves`, one `force_rescan` happens and then the NameError on
`processed_movies` is raised. -/
def verifyLoop (verify : Nat → Bool) (waitOk : Bool) (movieId : Int) :
    Nat → Nat → Option Bool × List Int
  | _, 0 => (some false, [])
  | attempt, left + 1 =>
    if verify attempt then
      if waitOk then (none, [movieId]) else (some true, [])
    else verifyLoop verify waitOk movieId (attempt + 1) left

/-- Embedding of `update_movie_path`. -/
def update_movie_path (dryRun : Bool) (movieId : Int) (newPath rootFolderPath : String)
    (o : UpdateOracles) : UpdateResult :=
  match o.details with
  | none => ⟨none, none, []⟩
  | some d =>
    if rstripSlash d.path = rstripSlash newPath then ⟨some false, none, []⟩
    else if ¬ o.rootFolders.any (fun f => rstripSlash f = rstripSlash rootFolderPath) then
      ⟨some false, none, []⟩
    else if rstripSlash d.path = rstripSlash newPath then ⟨some false, none, []⟩
    else if d.qualityProfileId ≤ 0 then ⟨none, none, []⟩
    else
      let payload := mkRadarrPayload d newPath
      if dryRun then ⟨some true, none, []⟩
      else if ¬ o.putOk then ⟨some false, some payload, []⟩
      else
        let v := verifyLoop o.verify o.waitOk movieId 0 3
        ⟨v.1, some payload, v.2⟩

/-! Embedding of `update_series_path`'s payload (the change orchestrator for
Sonarr).  The fetched series record is an arbitrary JSON-like dictionary;
the function sets `path` and `rootFolderPath` and pops a fixed list of
computed keys before the PUT. -/

inductive SVal where
  | str : String → SVal
  | int : Int → SVal
  | bool : Bool → SVal
deriving DecidableEq

def dictSetV (d : List (String × SVal)) (k : String) (v : SVal) : List (String × SVal) :=
  if d.any (fun p => p.1 = k) then d.map (fun p => if p.1 = k then (k, v) else p)
  else d ++ [(k, v)]

def dictPopV (d : List (String × SVal)) (k : String) : List (String × SVal) :=
  d.filter (fun p => p.1 ≠ k)

def dictGetV (d : List (String × SVal)) (k : String) : Option SVal :=
  (d.find? (fun p => p.1 = k)).map (fun p => p.2)

/-- The keys `update_series_path` pops before sending the record. -/
def sonarrPoppedKeys : List String :=
  ["seriesType", "cleanTitle", "sortTitle", "tags", "episodeFileCount",
   "episodeCount", "status"]

/-- The JSON body of the series update PUT: the fetched record with the new
path and root folder set and the popped keys removed. -/
def update_series_payload (details : List (String × SVal)) (newPath rootFolderPath : String) :
    List (String × SVal) :=
  sonarrPoppedKeys.foldl dictPopV
    (dictSetV (dictSetV details "path" (SVal.str newPath)) "rootFolderPath"
      (SVal.str rootFolderPath))

/-! Embedding of the move-completion verifier `wait_for_movie_moves`:
the Radarr operation log is an oracle giving, per retry, the list of fetched
log pages.  Log timestamps are modelled as integer seconds. -/

structure LogRecord where
  time : Int
  message : String
deriving DecidableEq

/-- Embedding of `normalize_title`: transliterate, lower-case, strip, keep
only alphanumerics. -/
def normalize_title (t : String) : String :=
  ⟨(stripL (lowerL (unidecodeL t.data))).filter isAlnumChar⟩

/-- The phrase the verifier searches the log messages for. -/
def movedPhrase : List Char := "moved successfully to".data

/-- The per-record scan of `wait_for_movie_moves`: a record older than the
threshold is ignored; otherwise, when the lowered message contains the moved
phrase, the normalized subject (the stripped text before the phrase) is
returned. -/
def recordMovedTitle (threshold : Int) (log : LogRecord) : Option String :=
  if log.time < threshold then none
  else
    let message := lowerL log.message.data
    if containsL movedPhrase message then
      some (normalize_title ⟨stripL (splitFirstL movedPhrase message)⟩)
    else none

/-- Adding a detected title to the `moved_movies` set: only titles in the
expected set are added. -/
def addMoved (expected moved : List String) (t : String) : List String :=
  if t ∈ expected ∧ t ∉ moved then moved ++ [t] else moved

/-- Scan of one log page, accumulating moved titles. -/
def scanPage (threshold : Int) (expected : List String) (moved : List String)
    (page : List LogRecord) : List String :=
  page.foldl
    (fun mv log =>
      match recordMovedTitle threshold log with
      | some t => addMoved expected mv t
      | none => mv)
    moved

/-- The superset check `moved_movies >= expected_titles`. -/
def supersetCheck (expected moved : List String) : Bool :=
  expected.all (fun t => t ∈ moved)

/-- The page loop of one retry: at most `maxPages` pages, stopping on an
empty page, returning success as soon as every expected title was seen. -/
def scanPages (threshold : Int) (expected : List String) :
    Nat → List String → List (List LogRecord) → List String × Bool
  | 0, moved, _ => (moved, false)
  | _ + 1, moved, [] => (moved, false)
  | n + 1, moved, page :: rest =>
    if page.isEmpty then (moved, false)
    else
      let moved2 := scanPage threshold expected moved page
      if supersetCheck expected moved2 then (moved2, true)
      else scanPages threshold expected n moved2 rest

/-- The retry loop of `wait_for_movie_moves`: up to five retries (counted
down by the second argument) of a three-page scan, with an early abort after
the fourth retry when nothing at all was detected. -/
def waitRetries (threshold : Int) (expected : List String)
    (fetch : Nat → List (List LogRecord)) : Nat → Nat → List String → Bool
  | _, 0, _ => false
  | r, left + 1, moved =>
    let s := scanPages threshold expected 3 moved (fetch r)
    if s.2 then true
    else if r ≥ 3 ∧ s.1 = [] then false
    else waitRetries threshold expected fetch (r + 1) left s.1

/-- First-occurrence deduplication, modelling a Python set built by
insertion. -/
def dedupFirst (l : List String) : List String :=
  l.foldl (fun acc t => if t ∈ acc then acc else acc ++ [t]) []

/-- The expected-title set of `wait_for_movie_moves`: the normalized titles
of the processed records that carry a title. -/
def expectedTitles (processed : List Movie) : List String :=
  dedupFirst (processed.filterMap (fun m => m.title.map normalize_title))

/-- Embedding of `wait_for_movie_moves`: empty input or an empty expected set
returns failure at once; otherwise only log records within the last 12 hours
(43200 seconds before `now`) are considered by the scan. -/
def wait_for_movie_moves (now : Int) (processed : List Movie)
    (fetch : Nat → List (List LogRecord)) : Bool :=
  if processed.isEmpty then false
  else
    let expected := expectedTitles processed
    if expected.isEmpty then false
    else waitRetries (now - 43200) expected fetch 0 5 []

/-! A model of the fuzzy similarity score used by the spec (`fuzz.ratio` of
the fuzzywuzzy library, defined over difflib's matching blocks).  Modelled
from the spec: the library is external to the repository; the script defines
`is_title_match` over it with an 85 threshold but never calls it. -/

/-- Length of the common prefix of two lists. -/
def commonRun : List Char → List Char → Nat
  | a :: as, b :: bs => if a = b then commonRun as bs + 1 else 0
  | _, _ => 0

/-- The longest matching block of two lists (size, start in the first, start
in the second), earliest starts winning ties. -/
def longestMatch (a b : List Char) : Nat × Nat × Nat :=
  (List.range a.length).foldl
    (fun best i =>
      (List.range b.length).foldl
        (fun best2 j =>
          let k := commonRun (a.drop i) (b.drop j)
          if k > best2.1 then (k, i, j) else best2)
        best)
    (0, 0, 0)

/-- Total size of the recursive matching-block decomposition (difflib's `M`),
with an explicit fuel bound. -/
def matchingSizes : Nat → List Char → List Char → Nat
  | 0, _, _ => 0
  | fuel + 1, a, b =>
    let lm := longestMatch a b
    if lm.1 = 0 then 0
    else
      matchingSizes fuel (a.take lm.2.1) (b.take lm.2.2) + lm.1 +
        matchingSizes fuel (a.drop (lm.2.1 + lm.1)) (b.drop (lm.2.2 + lm.1))

/-- The similarity score `round(200 * M / (len a + len b))`, a percentage. -/
def fuzzScore (s1 s2 : String) : Nat :=
  let M := matchingSizes (s1.data.length + s2.data.length + 1) s1.data s2.data
  let T := s1.data.length + s2.data.length
  if T = 0 then 100 else (400 * M + T) / (2 * T)

/-- Embedding of `is_title_match`: fuzzy score at least the threshold
(85 by default in the script); defined by the script but never called. -/
def is_title_match (expected moved : String) (threshold : Nat) : Bool :=
  fuzzScore expected moved ≥ threshold

/-! Structured templates, for reasoning about the substitution loop: a
template is an interleaving of literal text and brace-delimited tokens.
`renderSegs` recovers the raw template string the script works on. -/

inductive Seg where
  | lit : String → Seg
  | tok : String → Seg
deriving DecidableEq

def Seg.render : Seg → List Char
  | .lit s => s.data
  | .tok n => obrace :: (n.data ++ [cbrace])

def renderSegs : List Seg → List Char
  | [] => []
  | sg :: rest => sg.render ++ renderSegs rest

/-- Well-formedness of a segment: literals are brace-free, token names are
nonempty and brace-free. -/
def wfSeg : Seg → Bool
  | .lit s => braceFreeL s.data
  | .tok n => n.data ≠ [] ∧ braceFreeL n.data

def wfSegs (segs : List Seg) : Bool := segs.all wfSeg

/-- Replace every token segment rendering as `t` by a literal `v`. -/
def substSegs (segs : List Seg) (t : String) (v : List Char) : List Seg :=
  segs.map fun sg =>
    match sg with
    | .tok n => if obrace :: (n.data ++ [cbrace]) = t.data then .lit ⟨v⟩ else sg
    | .lit s => .lit s

/-- The effective replacement text of the substitution loop: empty when the
value contains `Unknown`, the value itself otherwise. -/
def effVal (v : String) : List Char :=
  if containsL "Unknown".data v.data then [] else v.data

/-- Segment-level image of the whole substitution loop. -/
def applyTvs (segs : List Seg) (tvs : List (String × String)) : List Seg :=
  tvs.foldl (fun sg p => substSegs sg p.1 (effVal p.2)) segs

/-- Whether any token segment remains. -/
def hasTok (segs : List Seg) : Bool :=
  segs.any fun sg =>
    match sg with
    | .tok _ => true
    | .lit _ => false

/-- The string ends with exactly one slash. -/
def endsWithOneSlash (s : String) : Bool :=
  match s.data.reverse with
  | [] => false
  | c :: rest =>
    (c = '/' : Bool) && (match rest with
      | [] => true
      | d :: _ => (d ≠ '/' : Bool))

/-- The pre-collapse concatenation inside `generate_new_path` (what the
single `replace("//", "/")` pass is applied to). -/
def moviePreConcat (root fmt : String) (tvs : List (String × String)) : List Char :=
  let np := (substituteTokens fmt tvs).data
  if root.data.isPrefixOf np then np else root.data ++ '/' :: np

/-- The joined body inside `generate_series_path` (everything before its
final trailing slash). -/
def seriesJoined (root fmt : String) (tvs : List (String × String)) : List Char :=
  rstripSlashL root.data ++ '/' :: rstripSlashL (substituteTokens fmt tvs).data

/-! Concrete inputs used by the witnesses and counterexamples. -/

def tokCleanTitle : String := ⟨obrace :: "Movie CleanTitle".data ++ [cbrace]⟩

def tokReleaseYear : String := ⟨obrace :: "Release Year".data ++ [cbrace]⟩

def fmtMovie : String := tokCleanTitle ++ " (" ++ tokReleaseYear ++ ")"

def toksMovie : List String := get_folder_name_tokens fmtMovie

/-- A template whose braces do not line up with its single extracted token:
`{{A}B}` as a character list. -/
def fmtWeird : String := ⟨[obrace, obrace, 'A', cbrace, 'B', cbrace]⟩

/-- The segment structure of `fmtMovie`. -/
def segsMovie : List Seg :=
  [Seg.tok "Movie CleanTitle", Seg.lit " (", Seg.tok "Release Year", Seg.lit ")"]

def mAlpha : Movie :=
  { id := 1, title := some "Alpha", year := some 2010, tmdbId := some 5,
    imdbId := some "tt1", path := "/m/Old", rootFolderPath := "/m" }

def mBeta : Movie :=
  { id := 2, title := some "Beta", year := some 2011, tmdbId := some 6,
    imdbId := some "tt2", path := "/m/Odd", rootFolderPath := "/m" }

/-- A movie whose title is genuinely available yet cleans to `Unknown`. -/
def mUnknownTitle : Movie :=
  { id := 3, title := some "Unknown!", year := some 2012, tmdbId := some 7,
    imdbId := some "tt3", path := "/m/U", rootFolderPath := "/m" }

def dAlpha : MovieDetails :=
  { id := 1, title := "Alpha", sortTitle := "alpha", year := some 2010,
    path := "/m/Old", monitored := true, qualityProfileId := 1,
    metadataProfileId := none, tmdbId := 5, imdbId := "tt1" }

def dBeta : MovieDetails :=
  { id := 2, title := "Beta", sortTitle := "beta", year := some 2011,
    path := "/m/Odd", monitored := true, qualityProfileId := 1,
    metadataProfileId := none, tmdbId := 6, imdbId := "tt2" }

/-- Oracle for a PUT that is rejected by the service. -/
def orcReject : UpdateOracles :=
  { details := some dAlpha, rootFolders := ["/m"], putOk := false,
    verify := fun _ => false, waitOk := false }

/-- Oracle for a PUT that succeeds with the files detected at once and a
failed move-log confirmation. -/
def orcAccept : UpdateOracles :=
  { details := some dBeta, rootFolders := ["/m"], putOk := true,
    verify := fun _ => true, waitOk := false }

/-- The update oracle of the work-cap counterexample: the first movie's
update is rejected, the second succeeds. -/
def updTwo : Movie → String → Bool := fun m np =>
  ((update_movie_path false m.id np m.rootFolderPath
    (if m.id = 1 then orcReject else orcAccept)).retval).getD false

def mMovies : Movie :=
  { id := 9, title := some "Movies", year := none, tmdbId := none,
    imdbId := none, path := "", rootFolderPath := "" }

def mAlphaBare : Movie :=
  { id := 8, title := some "Alpha", year := none, tmdbId := none,
    imdbId := none, path := "", rootFolderPath := "" }

def recMovieMoved : LogRecord := ⟨1000000, "Movie moved successfully to /data/x"⟩

/-- A matching log record that is far older than the recency window. -/
def recOldMoved : LogRecord := ⟨0, "Alpha moved successfully to /x"⟩

def fetchOldMoved : Nat → List (List LogRecord) := fun _ => [[recOldMoved]]

def recAlphaMoved : LogRecord := ⟨1000000, "Alpha moved successfully to /data/x"⟩

def fetchMovieMoved : Nat → List (List LogRecord) := fun _ => [[recMovieMoved]]

def fetchAlphaMoved : Nat → List (List LogRecord) := fun _ => [[recAlphaMoved]]

def tokSeriesTitleYear : String := ⟨obrace :: "Series TitleYear".data ++ [cbrace]⟩

/-- Oracle whose configured root folders do not contain the entry's root. -/
def orcConflict : UpdateOracles :=
  { details := some dAlpha, rootFolders := ["/x"], putOk := true,
    verify := fun _ => false, waitOk := false }

/-- A concrete fetched Sonarr series record (JSON dictionary). -/
def sDetails : List (String × SVal) :=
  [("id", SVal.int 4), ("title", SVal.str "Gamma"), ("monitored", SVal.bool true),
   ("qualityProfileId", SVal.int 2), ("tvdbId", SVal.int 77),
   ("imdbId", SVal.str "tt9"), ("path", SVal.str "/tv/Old"),
   ("sortTitle", SVal.str "gamma"), ("seriesType", SVal.str "standard")]

def sOne : Series :=
  { id := 4, title := some "Gamma", year := some 2018, firstAired := none,
    imdbId := some "tt9", tvdbId := some 77, path := some "/tv/Old",
    rootFolderPath := some "/tv" }

/-! Dictionary lemmas. -/

theorem find_map_key {α : Type} (d : List (String × α)) (k : String) (v : α)
    (h : d.any (fun p => p.1 = k) = true) :
    (d.map (fun p => if p.1 = k then (k, v) else p)).find? (fun p => p.1 = k) = some (k, v) := by
  induction d with
  | nil => simp at h
  | cons p ds ih =>
    by_cases hp : p.1 = k
    · simp [hp]
    · have h2 : ds.any (fun p => p.1 = k) = true := by
        simp only [List.any_cons, Bool.or_eq_true, decide_eq_true_eq] at h
        tauto
      rw [List.map_cons, if_neg hp, List.find?_cons_of_neg _ (by simpa using hp)]
      exact ih h2

theorem find_map_other {α : Type} (d : List (String × α)) (k k' : String) (v : α)
    (h : k' ≠ k) :
    (d.map (fun p => if p.1 = k then (k, v) else p)).find? (fun p => p.1 = k')
      = d.find? (fun p => p.1 = k') := by
  induction d with
  | nil => simp
  | cons p ds ih =>
    by_cases hpk : p.1 = k
    · have hp' : ¬ p.1 = k' := fun hk => h (hk.symm.trans hpk)
      rw [List.map_cons, if_pos hpk,
        List.find?_cons_of_neg _ (by simpa using fun hk => h hk.symm),
        List.find?_cons_of_neg _ (by simpa using hp'), ih]
    · rw [List.map_cons, if_neg hpk]
      by_cases hp : p.1 = k'
      · rw [List.find?_cons_of_pos _ (by simpa using hp),
          List.find?_cons_of_pos _ (by simpa using hp)]
      · rw [List.find?_cons_of_neg _ (by simpa using hp),
          List.find?_cons_of_neg _ (by simpa using hp), ih]

theorem find_append_of_no_key {α : Type} (d l : List (String × α)) (k : String)
    (h : d.any (fun p => p.1 = k) = false) :
    (d ++ l).find? (fun p => p.1 = k) = l.find? (fun p => p.1 = k) := by
  induction d with
  | nil => simp
  | cons p ds ih =>
    have h' := h
    simp only [List.any_cons, Bool.or_eq_false_iff] at h'
    rw [List.cons_append, List.find?_cons_of_neg _ (by simp [h'.1]), ih h'.2]

theorem any_eq_false_of_ne_true {b : Bool} (h : ¬ b = true) : b = false := by
  cases b with
  | true => exact absurd rfl h
  | false => rfl

theorem dictGet_insert_self (d : List (String × String)) (k v : String) :
    dictGet (pyDictInsertL d k v) k = some v := by
  unfold pyDictInsertL dictGet
  by_cases h : d.any (fun p => p.1 = k) = true
  · rw [if_pos h, find_map_key d k v h]
    rfl
  · rw [if_neg h, find_append_of_no_key d _ k (any_eq_false_of_ne_true h)]
    simp

theorem dictGet_insert_ne (d : List (String × String)) (k v k' : String)
    (h : k' ≠ k) : dictGet (pyDictInsertL d k v) k' = dictGet d k' := by
  unfold pyDictInsertL dictGet
  by_cases hd : d.any (fun p => p.1 = k) = true
  · rw [if_pos hd, find_map_other d k k' v h]
  · rw [if_neg hd, List.find?_append]
    have hone : ([((k, v))].find? (fun p => p.1 = k')) = none := by
      rw [List.find?_cons_of_neg _ (by simpa using fun hk => h hk.symm)]
      rfl
    rw [hone, Option.or_none]

/-! Decision lemmas: an entry whose ID is a cache key is always skipped via
the first membership test, before any path comparison. -/

theorem radarrDecision_of_mem (cache : List (String × String)) (fmt : String)
    (tokens : List String) (m : Movie)
    (h : dictContains cache (toString m.id) = true) :
    radarrDecision cache fmt tokens m = RadarrDecision.skipCacheMember := by
  unfold radarrDecision
  rw [if_pos h]

theorem sonarrDecision_of_mem (cache : List (String × String))
    (rootFolders : List String) (fmt : String) (s : Series)
    (h : dictContains cache (toString s.id) = true) :
    sonarrDecision cache rootFolders fmt s = SonarrDecision.skipCacheMember := by
  unfold sonarrDecision
  rw [if_pos h]

/-- Claim C1, counterexample: a movie whose ID is a cache key, with a cached
path different from the freshly generated path and a live path also
different, is nonetheless skipped outright as cache member — contradicting
the claim that such an entry "is not skipped but re-validated against the
live current path". -/
theorem C1_counterexample :
    radarrDecision [("1", "/m/Stale")] fmtMovie toksMovie mAlpha
        = RadarrDecision.skipCacheMember
      ∧ dictGet [("1", "/m/Stale")] (toString mAlpha.id)
          ≠ some (rstripSlash (radarrNewPath fmtMovie toksMovie mAlpha))
      ∧ rstripSlash mAlpha.path ≠ rstripSlash (radarrNewPath fmtMovie toksMovie mAlpha) := by
  decide

/-- Claim C1, amended: every entry whose ID is a key of the idempotence
cache is skipped unconditionally by the decision engine, whatever path the
cache holds; the cached-path-versus-generated-path comparison is unreachable
for cached entries (both in the Radarr and the Sonarr loop), so a stale
cache entry is never re-validated against the live current path. -/
theorem C1_amended (cacheM cacheS : List (String × String)) (fmt : String)
    (tokens : List String) (m : Movie) (rootFolders : List String) (s : Series)
    (hm : dictContains cacheM (toString m.id) = true)
    (hs : dictContains cacheS (toString s.id) = true) :
    radarrDecision cacheM fmt tokens m = RadarrDecision.skipCacheMember
      ∧ sonarrDecision cacheS rootFolders fmt s = SonarrDecision.skipCacheMember :=
  ⟨radarrDecision_of_mem cacheM fmt tokens m hm,
   sonarrDecision_of_mem cacheS rootFolders fmt s hs⟩

/-- Witness for the amended claim C1 at concrete inputs. -/
theorem C1_witness :
    radarrDecision [("1", "/m/Stale")] fmtMovie toksMovie mAlpha
        = RadarrDecision.skipCacheMember
      ∧ sonarrDecision [("4", "/tv/Stale")] ["/tv"] tokSeriesTitleYear sOne
        = SonarrDecision.skipCacheMember :=
  C1_amended [("1", "/m/Stale")] [("4", "/tv/Stale")] fmtMovie toksMovie mAlpha
    ["/tv"] sOne (by decide) (by decide)

/-- Claim C9: once a Radarr entry passes the cache and current-path checks
and an update is submitted, the generated path (trailing separator
stripped) is written to the cache under the entry's ID both on update
success and on failure (and likewise for Sonarr); consequently the entry is
skipped via the membership test in every subsequent run. -/
theorem C9_thm (fmt fmtS : String) (tokens : List String) (st : RState) (m : Movie)
    (b : Bool) (rootFolders : List String) (sst : SState) (s : Series) (bs : Bool)
    (hm : radarrDecision st.cache fmt tokens m = RadarrDecision.doUpdate)
    (hsd : sonarrDecision sst.cache rootFolders fmtS s = SonarrDecision.doUpdate) :
    dictGet (radarrStep fmt tokens (fun _ _ => b) st m).cache (toString m.id)
        = some (rstripSlash (radarrNewPath fmt tokens m))
      ∧ dictGet (sonarrStep rootFolders fmtS (fun _ _ => bs) sst s).cache (toString s.id)
        = some (rstripSlash (sonarrNewPath fmtS s))
      ∧ ∀ cache2 : List (String × String),
          dictContains cache2 (toString m.id) = true →
          radarrDecision cache2 fmt tokens m = RadarrDecision.skipCacheMember := by
  refine ⟨?_, ?_, fun c2 hc => radarrDecision_of_mem c2 fmt tokens m hc⟩
  · unfold radarrStep
    rw [hm]
    cases b with
    | true => simp only [if_true]; exact dictGet_insert_self _ _ _
    | false => simp only [if_false]; exact dictGet_insert_self _ _ _
  · unfold sonarrStep
    rw [hsd]
    cases hbs : (bs && !(sst.processed.contains s)) with
    | true => simp only [hbs, if_true]; exact dictGet_insert_self _ _ _
    | false => simp only [hbs, if_false]; exact dictGet_insert_self _ _ _

/-- Witness for claim C9 at concrete inputs. -/
theorem C9_witness :
    dictGet (radarrStep fmtMovie toksMovie (fun _ _ => false) ⟨[], 0, [], 0⟩ mAlpha).cache
        (toString mAlpha.id)
        = some (rstripSlash (radarrNewPath fmtMovie toksMovie mAlpha))
      ∧ dictGet (sonarrStep ["/tv"] tokSeriesTitleYear (fun _ _ => false) ⟨[], 0, []⟩ sOne).cache
        (toString sOne.id)
        = some (rstripSlash (sonarrNewPath tokSeriesTitleYear sOne))
      ∧ ∀ cache2 : List (String × String),
          dictContains cache2 (toString mAlpha.id) = true →
          radarrDecision cache2 fmtMovie toksMovie mAlpha = RadarrDecision.skipCacheMember :=
  C9_thm fmtMovie tokSeriesTitleYear toksMovie ⟨[], 0, [], 0⟩ mAlpha false ["/tv"]
    ⟨[], 0, []⟩ sOne false (by decide) (by decide)

/-- Claim C5: for an entry whose declared root folder is absent from the
configured root folders (compared ignoring trailing separators) and whose
current path differs from the generated path, `update_movie_path` records
the conflict and returns failure without any PUT, rescan or exception, and
the Sonarr loop skips the entry as a root conflict before any update. -/
theorem C5_thm (dryRun : Bool) (movieId : Int) (newPath rootFolderPath : String)
    (o : UpdateOracles) (d : MovieDetails) (cache : List (String × String))
    (rootFolders : List String) (fmtS : String) (s : Series)
    (hd : o.details = some d)
    (hpath : rstripSlash d.path ≠ rstripSlash newPath)
    (hroot : ∀ f ∈ o.rootFolders, rstripSlash f ≠ rstripSlash rootFolderPath)
    (hsmem : dictContains cache (toString s.id) = false)
    (hsroot : ∀ f ∈ rootFolders,
      rstripSlash (s.rootFolderPath.getD "/media/Series") ≠ rstripSlash f) :
    update_movie_path dryRun movieId newPath rootFolderPath o
        = ⟨some false, none, []⟩
      ∧ sonarrDecision cache rootFolders fmtS s = SonarrDecision.skipRootConflict := by
  constructor
  · have hany : (o.rootFolders.any
        (fun f => rstripSlash f = rstripSlash rootFolderPath)) = false := by
      rw [List.any_eq_false]
      intro f hf
      simpa using hroot f hf
    simp only [update_movie_path, hd]
    rw [if_neg hpath, if_pos (by simp [hany])]
  · have hany : (rootFolders.any
        (fun f => rstripSlash (s.rootFolderPath.getD "/media/Series") = rstripSlash f))
          = false := by
      rw [List.any_eq_false]
      intro f hf
      simpa using hsroot f hf
    unfold sonarrDecision
    rw [if_neg (by simp [hsmem]), if_pos (by simp [hany])]

/-- Witness for claim C5 at concrete inputs. -/
theorem C5_witness :
    update_movie_path false 1 "/m/Alpha (2010)/" "/m" orcConflict
        = ⟨some false, none, []⟩
      ∧ sonarrDecision [] ["/x"] tokSeriesTitleYear sOne
        = SonarrDecision.skipRootConflict :=
  C5_thm false 1 "/m/Alpha (2010)/" "/m" orcConflict dAlpha [] ["/x"]
    tokSeriesTitleYear sOne rfl (by decide) (by decide) (by decide) (by decide)

/-! Lemmas on the JSON-dictionary operations of the Sonarr payload. -/

theorem dictGetV_set_self (d : List (String × SVal)) (k : String) (v : SVal) :
    dictGetV (dictSetV d k v) k = some v := by
  unfold dictSetV dictGetV
  by_cases h : d.any (fun p => p.1 = k) = true
  · rw [if_pos h, find_map_key d k v h]
    rfl
  · rw [if_neg h, find_append_of_no_key d _ k (any_eq_false_of_ne_true h)]
    simp

theorem dictGetV_set_other (d : List (String × SVal)) (k : String) (v : SVal)
    (k' : String) (h : k' ≠ k) : dictGetV (dictSetV d k v) k' = dictGetV d k' := by
  unfold dictSetV dictGetV
  by_cases hd : d.any (fun p => p.1 = k) = true
  · rw [if_pos hd, find_map_other d k k' v h]
  · rw [if_neg hd, List.find?_append]
    have hone : ([((k, v))].find? (fun p => p.1 = k')) = none := by
      rw [List.find?_cons_of_neg _ (by simpa using fun hk => h hk.symm)]
      rfl
    rw [hone, Option.or_none]

theorem dictGetV_pop_other (d : List (String × SVal)) (k k' : String)
    (h : k' ≠ k) : dictGetV (dictPopV d k) k' = dictGetV d k' := by
  unfold dictPopV dictGetV
  induction d with
  | nil => simp
  | cons p ds ih =>
    by_cases hpk : p.1 = k
    · have hne : ¬ p.1 = k' := fun hp2 => h (hp2.symm.trans hpk)
      rw [List.filter_cons_of_neg (by simpa using hpk),
        List.find?_cons_of_neg _ (by simpa using hne)]
      exact ih
    · rw [List.filter_cons_of_pos (by simpa using hpk)]
      by_cases hp : p.1 = k'
      · rw [List.find?_cons_of_pos _ (by simpa using hp),
          List.find?_cons_of_pos _ (by simpa using hp)]
      · rw [List.find?_cons_of_neg _ (by simpa using hp),
          List.find?_cons_of_neg _ (by simpa using hp)]
        exact ih

theorem dictGetV_popFold_other (keys : List String) (d : List (String × SVal))
    (k : String) (h : k ∉ keys) :
    dictGetV (keys.foldl dictPopV d) k = dictGetV d k := by
  induction keys generalizing d with
  | nil => rfl
  | cons q qs ih =>
    have hq : k ≠ q := fun hk => h (hk ▸ List.mem_cons_self q qs)
    have hqs : k ∉ qs := fun hk => h (List.mem_cons_of_mem q hk)
    rw [List.foldl_cons, ih _ hqs, dictGetV_pop_other d q k hq]

/-- Claim C3: whenever the change orchestrator actually submits an update,
the body carries the complete known mutable record.  For Radarr the payload
copies identifier, title, sort title, year, monitoring state, quality and
metadata profile IDs and catalog IDs from the freshly fetched record, only
the path being the new one; for Sonarr the payload is the fetched record
with the new path and root folder set, every key outside the fixed popped
list carried unchanged. -/
theorem C3_thm (dryRun : Bool) (movieId : Int) (newPath rootFolderPath : String)
    (o : UpdateOracles) (d : MovieDetails) (p : RadarrPayload)
    (details : List (String × SVal)) (np rp : String)
    (hd : o.details = some d)
    (hp : (update_movie_path dryRun movieId newPath rootFolderPath o).payload = some p) :
    (p.id = d.id ∧ p.title = d.title ∧ p.monitored = d.monitored
      ∧ p.qualityProfileId = d.qualityProfileId
      ∧ p.metadataProfileId = d.metadataProfileId
      ∧ p.tmdbId = d.tmdbId ∧ p.imdbId = d.imdbId
      ∧ p.sortTitle = d.sortTitle ∧ p.year = d.year ∧ p.path = newPath)
    ∧ (∀ k : String, k ∉ sonarrPoppedKeys → k ≠ "path" → k ≠ "rootFolderPath" →
        dictGetV (update_series_payload details np rp) k = dictGetV details k)
    ∧ dictGetV (update_series_payload details np rp) "path" = some (SVal.str np) := by
  refine ⟨?_, ?_, ?_⟩
  · simp only [update_movie_path, hd] at hp
    split_ifs at hp
    all_goals simp at hp
    all_goals
      subst hp
      exact ⟨rfl, rfl, rfl, rfl, rfl, rfl, rfl, rfl, rfl, rfl⟩
  · intro k hpop hpath hroot
    unfold update_series_payload
    rw [dictGetV_popFold_other _ _ _ hpop,
      dictGetV_set_other _ _ _ _ hroot, dictGetV_set_other _ _ _ _ hpath]
  · unfold update_series_payload
    rw [dictGetV_popFold_other _ _ _ (by decide),
      dictGetV_set_other _ _ _ _ (by decide), dictGetV_set_self]

/-- Witness for claim C3 at concrete inputs. -/
theorem C3_witness :
    ((mkRadarrPayload dBeta "/m/Beta (2011)/").title = dBeta.title
      ∧ (mkRadarrPayload dBeta "/m/Beta (2011)/").monitored = dBeta.monitored
      ∧ (mkRadarrPayload dBeta "/m/Beta (2011)/").path = "/m/Beta (2011)/")
    ∧ dictGetV (update_series_payload sDetails "/tv/New/" "/tv") "monitored"
        = dictGetV sDetails "monitored"
    ∧ dictGetV (update_series_payload sDetails "/tv/New/" "/tv") "path"
        = some (SVal.str "/tv/New/") := by
  have h := C3_thm false 2 "/m/Beta (2011)/" "/m" orcAccept dBeta
    (mkRadarrPayload dBeta "/m/Beta (2011)/") sDetails "/tv/New/" "/tv" rfl (by decide)
  exact ⟨⟨h.1.2.1, h.1.2.2.1, h.1.2.2.2.2.2.2.2.2.2⟩,
    h.2.1 "monitored" (by decide) (by decide) (by decide), h.2.2⟩

/-! Lemmas towards claim C4: a verification that never confirms anything
returns failure without side effects. -/

theorem scanPage_no_detect (th : Int) (e mv : List String) (page : List LogRecord)
    (h : ∀ log ∈ page, recordMovedTitle th log = none) :
    scanPage th e mv page = mv := by
  induction page generalizing mv with
  | nil => rfl
  | cons log rest ih =>
    have h0 : recordMovedTitle th log = none := h log (List.mem_cons_self _ _)
    have hrest : ∀ l ∈ rest, recordMovedTitle th l = none :=
      fun l hl => h l (List.mem_cons_of_mem _ hl)
    have hstep : scanPage th e mv (log :: rest) = scanPage th e mv rest := by
      unfold scanPage
      rw [List.foldl_cons, h0]
    rw [hstep]
    exact ih mv hrest

theorem scanPages_no_detect (th : Int) (e : List String) (he : e ≠ []) :
    ∀ (n : Nat) (pages : List (List LogRecord)),
    (∀ page ∈ pages, ∀ log ∈ page, recordMovedTitle th log = none) →
    scanPages th e n [] pages = ([], false) := by
  intro n
  induction n with
  | zero => intro pages _; rfl
  | succ k ih =>
    intro pages hall
    cases pages with
    | nil => rfl
    | cons page rest =>
      unfold scanPages
      by_cases hp : page.isEmpty
      · rw [if_pos hp]
      · rw [if_neg hp]
        have hpage := scanPage_no_detect th e [] page
          (fun l hl => hall page (List.mem_cons_self _ _) l hl)
        have hsup : supersetCheck e [] = false := by
          cases e with
          | nil => exact absurd rfl he
          | cons t ts => simp [supersetCheck]
        dsimp only
        rw [hpage, hsup, if_neg Bool.false_ne_true]
        exact ih rest (fun p hp2 l hl => hall p (List.mem_cons_of_mem _ hp2) l hl)

theorem waitRetries_no_detect (th : Int) (e : List String) (he : e ≠ [])
    (fetch : Nat → List (List LogRecord))
    (hall : ∀ r, ∀ page ∈ fetch r, ∀ log ∈ page, recordMovedTitle th log = none) :
    ∀ (left r : Nat), waitRetries th e fetch r left [] = false := by
  intro left
  induction left with
  | zero => intro r; rfl
  | succ k ih =>
    intro r
    unfold waitRetries
    dsimp only
    rw [scanPages_no_detect th e he 3 (fetch r) (hall r)]
    dsimp only
    rw [if_neg Bool.false_ne_true]
    by_cases hr3 : r ≥ 3
    · rw [if_pos ⟨hr3, rfl⟩]
    · rw [if_neg (fun hc => hr3 hc.1)]
      exact ih (r + 1)

theorem verifyLoop_no_wait (verify : Nat → Bool) (movieId : Int) :
    ∀ (left attempt : Nat),
      (verifyLoop verify false movieId attempt left).2 = []
        ∧ ∃ b, (verifyLoop verify false movieId attempt left).1 = some b := by
  intro left
  induction left with
  | zero => exact fun a => ⟨rfl, ⟨false, rfl⟩⟩
  | succ k ih =>
    intro a
    unfold verifyLoop
    by_cases hv : verify a = true
    · rw [if_pos hv]
      exact ⟨rfl, ⟨true, rfl⟩⟩
    · rw [if_neg hv]
      exact ih (a + 1)

/-- Claim C4: when move verification exhausts its attempts without
confirming, the verifier returns failure and no exception: a log scan with
no matching record within the window makes `wait_for_movie_moves` return
`False`; `update_movie_path` under a failed wait triggers no rescan and
returns a boolean rather than raising; and the processing loop steps to the
next entry with the cache updated to the requested path (stripped). -/
theorem C4_thm :
    (∀ (now : Int) (processed : List Movie) (fetch : Nat → List (List LogRecord)),
      (∀ r, ∀ page ∈ fetch r, ∀ log ∈ page,
        recordMovedTitle (now - 43200) log = none) →
      wait_for_movie_moves now processed fetch = false)
    ∧ (∀ (movieId : Int) (newPath rootFolderPath : String) (o : UpdateOracles)
        (d : MovieDetails), o.details = some d → 0 < d.qualityProfileId →
        o.waitOk = false →
        (update_movie_path false movieId newPath rootFolderPath o).rescans = []
          ∧ ∃ b, (update_movie_path false movieId newPath rootFolderPath o).retval
              = some b)
    ∧ (∀ (wl : Int) (fmt : String) (tokens : List String)
        (upd : Movie → String → Bool) (st : RState) (m : Movie) (rest : List Movie),
        ¬ (wl > 0 ∧ (st.count : Int) ≥ wl) →
        radarrLoop wl fmt tokens upd st (m :: rest)
            = radarrLoop wl fmt tokens upd (radarrStep fmt tokens upd st m) rest
          ∧ (radarrDecision st.cache fmt tokens m = RadarrDecision.doUpdate →
             dictGet (radarrStep fmt tokens upd st m).cache (toString m.id)
               = some (rstripSlash (radarrNewPath fmt tokens m)))) := by
  refine ⟨?_, ?_, ?_⟩
  · intro now processed fetch hall
    unfold wait_for_movie_moves
    by_cases hpe : processed.isEmpty
    · rw [if_pos hpe]
    · rw [if_neg hpe]
      by_cases hee : (expectedTitles processed).isEmpty
      · rw [if_pos hee]
      · rw [if_neg hee]
        exact waitRetries_no_detect (now - 43200) (expectedTitles processed)
          (fun h0 => hee (h0 ▸ rfl)) fetch hall 5 0
  · intro movieId newPath rootFolderPath o d hd hq hw
    simp only [update_movie_path, hd]
    split_ifs <;>
      first
        | exact ⟨rfl, ⟨false, rfl⟩⟩
        | exact ⟨rfl, ⟨true, rfl⟩⟩
        | omega
        | (rw [hw]
           exact ⟨(verifyLoop_no_wait o.verify movieId 3 0).1,
             (verifyLoop_no_wait o.verify movieId 3 0).2⟩)
  · intro wl fmt tokens upd st m rest hcap
    constructor
    · conv_lhs => rw [radarrLoop]
      rw [if_neg hcap]
    · intro hdec
      unfold radarrStep
      rw [hdec]
      cases hb : upd m (radarrNewPath fmt tokens m) with
      | true => simp only [hb, if_true]; exact dictGet_insert_self _ _ _
      | false => simp only [hb, if_false]; exact dictGet_insert_self _ _ _

/-- Witness for claim C4 at concrete inputs: an accepted update whose log
verification finds only a record outside the window, exhausting retries. -/
theorem C4_witness :
    wait_for_movie_moves 1000000 [mAlphaBare] fetchOldMoved = false
      ∧ ((update_movie_path false 2 "/m/Beta (2011)/" "/m" orcAccept).rescans = []
         ∧ ∃ b, (update_movie_path false 2 "/m/Beta (2011)/" "/m" orcAccept).retval
             = some b)
      ∧ (radarrLoop 1 fmtMovie toksMovie updTwo ⟨[], 0, [], 0⟩ [mAlpha, mBeta]
           = radarrLoop 1 fmtMovie toksMovie updTwo
               (radarrStep fmtMovie toksMovie updTwo ⟨[], 0, [], 0⟩ mAlpha) [mBeta]
         ∧ (radarrDecision [] fmtMovie toksMovie mAlpha = RadarrDecision.doUpdate →
            dictGet (radarrStep fmtMovie toksMovie updTwo ⟨[], 0, [], 0⟩ mAlpha).cache
                (toString mAlpha.id)
              = some (rstripSlash (radarrNewPath fmtMovie toksMovie mAlpha)))) := by
  refine ⟨C4_thm.1 1000000 [mAlphaBare] fetchOldMoved ?_,
    C4_thm.2.1 2 "/m/Beta (2011)/" "/m" orcAccept dBeta rfl (by decide) rfl,
    C4_thm.2.2 1 fmtMovie toksMovie updTwo ⟨[], 0, [], 0⟩ mAlpha [mBeta] (by decide)⟩
  intro r page hp log hl
  simp only [fetchOldMoved, List.mem_singleton] at hp
  subst hp
  simp only [List.mem_singleton] at hl
  subst hl
  decide

/-! Lemmas towards claim C6: the work cap counts successes only, and one
step touches the cache only at its own entry's ID. -/

theorem radarrStep_count_le (fmt : String) (tokens : List String)
    (upd : Movie → String → Bool) (st : RState) (m : Movie) :
    (radarrStep fmt tokens upd st m).count ≤ st.count + 1 := by
  unfold radarrStep
  split
  · omega
  · omega
  · simp
  · dsimp only
    split
    · simp
    · simp

theorem radarrStep_cache_other (fmt : String) (tokens : List String)
    (upd : Movie → String → Bool) (st : RState) (m : Movie) (id : String)
    (h : id ≠ toString m.id) :
    dictGet (radarrStep fmt tokens upd st m).cache id = dictGet st.cache id := by
  unfold radarrStep
  split
  · rfl
  · rfl
  · exact dictGet_insert_ne _ _ _ _ h
  · dsimp only
    split
    · exact dictGet_insert_ne _ _ _ _ h
    · exact dictGet_insert_ne _ _ _ _ h

/-- Claim C6, counterexample: with the cap configured to 1 and two eligible
movies, the first of which gets a rejected update (a real PUT that fails),
the run attempts two updates — the loop only counts successes toward the
cap, so "the run never attempts more than N updates" is false. -/
theorem C6_counterexample :
    (radarrLoop 1 fmtMovie toksMovie updTwo ⟨[], 0, [], 0⟩ [mAlpha, mBeta]).1.attempts = 2
      ∧ (1 : Int) < 2
      ∧ (update_movie_path false mAlpha.id (radarrNewPath fmtMovie toksMovie mAlpha)
          mAlpha.rootFolderPath orcReject).payload.isSome = true
      ∧ (update_movie_path false mBeta.id (radarrNewPath fmtMovie toksMovie mBeta)
          mBeta.rootFolderPath orcAccept).payload.isSome = true
      ∧ radarrDecision [] fmtMovie toksMovie mAlpha = RadarrDecision.doUpdate := by
  decide

/-- Claim C6, amended: with a positive cap N the loop stops once N updates
have been counted, but only successful updates count — so at most N
successes occur while more than N attempts are possible.  The movies never
reached form a suffix left untouched: the cache changes only at IDs of
movies actually reached. -/
theorem C6_amended (wl : Int) (fmt : String) (tokens : List String)
    (upd : Movie → String → Bool) (st0 : RState) (movies : List Movie)
    (hwl : 0 < wl) (hc0 : (st0.count : Int) ≤ wl) :
    ((radarrLoop wl fmt tokens upd st0 movies).1.count : Int) ≤ wl
      ∧ ∃ pre, movies = pre ++ (radarrLoop wl fmt tokens upd st0 movies).2
        ∧ ∀ id, dictGet (radarrLoop wl fmt tokens upd st0 movies).1.cache id
              ≠ dictGet st0.cache id →
            id ∈ pre.map (fun m => toString m.id) := by
  induction movies generalizing st0 with
  | nil =>
    exact ⟨hc0, ⟨[], rfl, fun id hne => absurd rfl hne⟩⟩
  | cons m rest ih =>
    have hunf : radarrLoop wl fmt tokens upd st0 (m :: rest)
        = if wl > 0 ∧ (st0.count : Int) ≥ wl then (st0, m :: rest)
          else radarrLoop wl fmt tokens upd (radarrStep fmt tokens upd st0 m) rest := rfl
    by_cases hcap : wl > 0 ∧ (st0.count : Int) ≥ wl
    · rw [hunf, if_pos hcap]
      exact ⟨hc0, ⟨[], rfl, fun id hne => absurd rfl hne⟩⟩
    · rw [hunf, if_neg hcap]
      have hlt : (st0.count : Int) < wl := by
        rcases not_and_or.mp hcap with h | h
        · exact absurd hwl h
        · omega
      have hc1 : ((radarrStep fmt tokens upd st0 m).count : Int) ≤ wl := by
        have := radarrStep_count_le fmt tokens upd st0 m
        omega
      obtain ⟨hcount, pre1, hsplit, hmod⟩ := ih (radarrStep fmt tokens upd st0 m) hc1
      refine ⟨hcount, ⟨m :: pre1, by rw [List.cons_append, ← hsplit], ?_⟩⟩
      intro id hne
      by_cases hid : id = toString m.id
      · simp [hid]
      · have hstep := radarrStep_cache_other fmt tokens upd st0 m id hid
        have : dictGet (radarrLoop wl fmt tokens upd
            (radarrStep fmt tokens upd st0 m) rest).1.cache id
            ≠ dictGet (radarrStep fmt tokens upd st0 m).cache id := by
          rw [hstep]
          exact hne
        exact List.mem_cons_of_mem _ (hmod id this)

/-- Witness for the amended claim C6 at concrete inputs. -/
theorem C6_witness :
    ((radarrLoop 1 fmtMovie toksMovie updTwo ⟨[], 0, [], 0⟩ [mAlpha, mBeta]).1.count : Int) ≤ 1
      ∧ ∃ pre, [mAlpha, mBeta]
            = pre ++ (radarrLoop 1 fmtMovie toksMovie updTwo ⟨[], 0, [], 0⟩ [mAlpha, mBeta]).2
          ∧ ∀ id, dictGet (radarrLoop 1 fmtMovie toksMovie updTwo
                ⟨[], 0, [], 0⟩ [mAlpha, mBeta]).1.cache id
              ≠ dictGet (⟨[], 0, [], 0⟩ : RState).cache id →
            id ∈ pre.map (fun m => toString m.id) :=
  C6_amended 1 fmtMovie toksMovie updTwo ⟨[], 0, [], 0⟩ [mAlpha, mBeta]
    (by decide) (by decide)

/-! Unfolding lemmas for the Python replace model. -/

theorem replaceAux_skip (pat rep : List Char) :
    ∀ (s : List Char) (n : Nat), replaceAux pat rep n s = replaceAux pat rep 0 (s.drop n) := by
  intro s
  induction s with
  | nil => intro n; cases n <;> rfl
  | cons c cs ih =>
    intro n
    cases n with
    | zero => rfl
    | succ k =>
      show replaceAux pat rep k cs = _
      rw [ih k]
      rfl

theorem replaceL_nil (pat rep : List Char) : replaceL pat rep [] = [] := rfl

theorem replaceL_cons_pos (pat rep : List Char) (c : Char) (cs : List Char)
    (h1 : pat ≠ []) (h2 : pat.isPrefixOf (c :: cs) = true) :
    replaceL pat rep (c :: cs) = rep ++ replaceL pat rep (cs.drop (pat.length - 1)) := by
  show replaceAux pat rep 0 (c :: cs) = _
  rw [show replaceAux pat rep 0 (c :: cs)
      = if pat ≠ [] ∧ pat.isPrefixOf (c :: cs) = true then
          rep ++ replaceAux pat rep (pat.length - 1) cs
        else c :: replaceAux pat rep 0 cs from rfl]
  rw [if_pos ⟨h1, h2⟩, replaceAux_skip]
  rfl

theorem replaceL_cons_neg (pat rep : List Char) (c : Char) (cs : List Char)
    (h : ¬ (pat ≠ [] ∧ pat.isPrefixOf (c :: cs) = true)) :
    replaceL pat rep (c :: cs) = c :: replaceL pat rep cs := by
  show replaceAux pat rep 0 (c :: cs) = _
  rw [show replaceAux pat rep 0 (c :: cs)
      = if pat ≠ [] ∧ pat.isPrefixOf (c :: cs) = true then
          rep ++ replaceAux pat rep (pat.length - 1) cs
        else c :: replaceAux pat rep 0 cs from rfl]
  rw [if_neg h]
  rfl

theorem containsL_nil (pat : List Char) : containsL pat [] = pat.isPrefixOf [] := rfl

theorem containsL_cons (pat : List Char) (c : Char) (cs : List Char) :
    containsL pat (c :: cs) = (pat.isPrefixOf (c :: cs) || containsL pat cs) := rfl

theorem containsL_append_left (pat a b : List Char)
    (h : containsL pat a = true) : containsL pat (a ++ b) = true := by
  induction a with
  | nil =>
    rw [containsL_nil] at h
    have hp : pat = [] := by
      cases pat with
      | nil => rfl
      | cons x xs => simp [List.isPrefixOf] at h
    subst hp
    cases b with
    | nil => rfl
    | cons d ds =>
      rw [List.nil_append, containsL_cons]
      simp [List.isPrefixOf]
  | cons c a2 ih =>
    rw [containsL_cons] at h
    rw [List.cons_append, containsL_cons]
    rcases Bool.or_eq_true_iff.mp h with hp | hc
    · have hpp : pat.isPrefixOf (c :: (a2 ++ b)) = true := by
        rw [List.isPrefixOf_iff_prefix] at hp ⊢
        rw [← List.cons_append]
        exact hp.trans (List.prefix_append _ _)
      rw [hpp, Bool.true_or]
    · rw [ih hc, Bool.or_true]

theorem containsL_prefix_false (pat a b : List Char)
    (h : containsL pat (a ++ b) = false) : containsL pat a = false := by
  cases hx : containsL pat a with
  | false => rfl
  | true => rw [containsL_append_left pat a b hx] at h; exact absurd h (by simp)

/-- Replacement with a brace-led pattern walks over any open-brace-free
prefix unchanged. -/
theorem replaceL_append_no_open (p rep : List Char) (a s : List Char)
    (ha : ∀ c ∈ a, c ≠ obrace) :
    replaceL (obrace :: p) rep (a ++ s) = a ++ replaceL (obrace :: p) rep s := by
  induction a with
  | nil => rfl
  | cons c a2 ih =>
    have hc : c ≠ obrace := ha c (List.mem_cons_self _ _)
    have hbeq : (obrace == c) = false := beq_eq_false_iff_ne.mpr fun hh => hc hh.symm
    have hpre : (obrace :: p).isPrefixOf (c :: (a2 ++ s)) = false := by
      show (obrace == c && p.isPrefixOf (a2 ++ s)) = false
      rw [hbeq, Bool.false_and]
    rw [List.cons_append,
      replaceL_cons_neg _ _ _ _ (fun hand => ne_true_of_eq_false hpre hand.2),
      ih (fun d hd => ha d (List.mem_cons_of_mem _ hd)), List.cons_append]

/-- A brace-free token name followed by the closing brace determines itself:
if `t ++ [cbrace]` is a prefix of `n ++ cbrace :: s` with `t` and `n` both
brace-free, then `t = n`. -/
theorem token_prefix_eq (t : List Char) :
    ∀ (n s : List Char), braceFreeL t = true → braceFreeL n = true →
    (t ++ [cbrace]).isPrefixOf (n ++ cbrace :: s) = true → t = n := by
  induction t with
  | nil =>
    intro n s _ hn h
    cases n with
    | nil => rfl
    | cons b n2 =>
      rw [List.nil_append, List.cons_append] at h
      have hb : (cbrace == b) = true := by
        have : (cbrace == b && ([] : List Char).isPrefixOf (n2 ++ cbrace :: s)) = true := h
        exact (Bool.and_eq_true_iff.mp this).1
      have : b ≠ cbrace := by
        have := hn
        simp [braceFreeL] at this
        exact this.1.2
      exact absurd (eq_of_beq hb).symm this
  | cons a t2 ih =>
    intro n s ht hn h
    cases n with
    | nil =>
      rw [List.cons_append, List.nil_append] at h
      have ha : (a == cbrace) = true := (Bool.and_eq_true_iff.mp h).1
      have : a ≠ cbrace := by
        simp [braceFreeL] at ht
        exact ht.1.2
      exact absurd (eq_of_beq ha) this
    | cons b n2 =>
      rw [List.cons_append, List.cons_append] at h
      have hab : (a == b) = true := (Bool.and_eq_true_iff.mp h).1
      have hrest : (t2 ++ [cbrace]).isPrefixOf (n2 ++ cbrace :: s) = true :=
        (Bool.and_eq_true_iff.mp h).2
      have ht2 : braceFreeL t2 = true := by
        simp only [braceFreeL, List.all_cons, Bool.and_eq_true] at ht
        exact ht.2
      have hn2 : braceFreeL n2 = true := by
        simp only [braceFreeL, List.all_cons, Bool.and_eq_true] at hn
        exact hn.2
      rw [eq_of_beq hab, ih n2 s ht2 hn2 hrest]

theorem braceFree_no_open (s : List Char) (h : braceFreeL s = true) :
    ∀ c ∈ s, c ≠ obrace := by
  intro c hm
  exact (of_decide_eq_true (List.all_eq_true.mp h c hm)).1

theorem braceFree_no_close (s : List Char) (h : braceFreeL s = true) :
    ∀ c ∈ s, c ≠ cbrace := by
  intro c hm
  exact (of_decide_eq_true (List.all_eq_true.mp h c hm)).2

/-- One pass of the substitution loop on a rendered well-formed template
rewrites exactly the matching token segments. -/
theorem replaceL_renderSegs (tn v : List Char) (segs : List Seg)
    (hw : wfSegs segs = true) (htb : braceFreeL tn = true) :
    replaceL (obrace :: (tn ++ [cbrace])) v (renderSegs segs)
      = renderSegs (substSegs segs ⟨obrace :: (tn ++ [cbrace])⟩ v) := by
  induction segs with
  | nil => rfl
  | cons sg rest ih =>
    have hwsg : wfSeg sg = true := by
      simp only [wfSegs, List.all_cons, Bool.and_eq_true] at hw
      exact hw.1
    have hwrest : wfSegs rest = true := by
      simp only [wfSegs, List.all_cons, Bool.and_eq_true] at hw
      exact hw.2
    cases sg with
    | lit l =>
      have hl : braceFreeL l.data = true := hwsg
      calc replaceL (obrace :: (tn ++ [cbrace])) v (l.data ++ renderSegs rest)
          = l.data ++ replaceL (obrace :: (tn ++ [cbrace])) v (renderSegs rest) :=
            replaceL_append_no_open _ _ _ _ (braceFree_no_open l.data hl)
        _ = l.data ++ renderSegs (substSegs rest ⟨obrace :: (tn ++ [cbrace])⟩ v) := by
            rw [ih hwrest]
        _ = renderSegs (substSegs (Seg.lit l :: rest) ⟨obrace :: (tn ++ [cbrace])⟩ v) := rfl
    | tok n =>
      have hn : braceFreeL n.data = true := (of_decide_eq_true hwsg).2
      show replaceL (obrace :: (tn ++ [cbrace])) v
          ((obrace :: (n.data ++ [cbrace])) ++ renderSegs rest) = _
      by_cases heq : n.data = tn
      · have h1 : (obrace :: (n.data ++ [cbrace])) ++ renderSegs rest
            = obrace :: ((tn ++ [cbrace]) ++ renderSegs rest) := by
          rw [heq, List.cons_append, List.append_assoc]
        rw [h1]
        have hpre : (obrace :: (tn ++ [cbrace])).isPrefixOf
            (obrace :: ((tn ++ [cbrace]) ++ renderSegs rest)) = true := by
          show ((obrace == obrace)
            && (tn ++ [cbrace]).isPrefixOf ((tn ++ [cbrace]) ++ renderSegs rest)) = true
          rw [beq_self_eq_true, Bool.true_and]
          exact List.isPrefixOf_iff_prefix.mpr (List.prefix_append _ _)
        rw [replaceL_cons_pos _ _ _ _ (by simp) hpre]
        have hdrop : ((tn ++ [cbrace]) ++ renderSegs rest).drop
            ((obrace :: (tn ++ [cbrace])).length - 1) = renderSegs rest := by
          have hlen : (obrace :: (tn ++ [cbrace])).length - 1 = (tn ++ [cbrace]).length := by
            simp
          rw [hlen, List.drop_left]
        rw [hdrop, ih hwrest]
        have hcond : obrace :: (n.data ++ [cbrace])
            = (⟨obrace :: (tn ++ [cbrace])⟩ : String).data := by
          rw [heq]
        have h2 : substSegs (Seg.tok n :: rest) ⟨obrace :: (tn ++ [cbrace])⟩ v
            = Seg.lit ⟨v⟩ :: substSegs rest ⟨obrace :: (tn ++ [cbrace])⟩ v := by
          simp only [substSegs, List.map_cons, if_pos hcond]
        rw [h2]
        rfl
      · have hshape : (obrace :: (n.data ++ [cbrace])) ++ renderSegs rest
            = obrace :: (n.data ++ cbrace :: renderSegs rest) := by
          simp
        rw [hshape]
        have hinner : (tn ++ [cbrace]).isPrefixOf
            (n.data ++ cbrace :: renderSegs rest) = false := by
          cases hin : (tn ++ [cbrace]).isPrefixOf (n.data ++ cbrace :: renderSegs rest) with
          | false => rfl
          | true =>
            exact absurd (token_prefix_eq tn n.data (renderSegs rest) htb hn hin).symm heq
        have hpre : (obrace :: (tn ++ [cbrace])).isPrefixOf
            (obrace :: (n.data ++ cbrace :: renderSegs rest)) = false := by
          show ((obrace == obrace)
            && (tn ++ [cbrace]).isPrefixOf (n.data ++ cbrace :: renderSegs rest)) = false
          rw [hinner, Bool.and_false]
        rw [replaceL_cons_neg _ _ _ _ (fun hand => ne_true_of_eq_false hpre hand.2)]
        have hsplit : n.data ++ cbrace :: renderSegs rest
            = (n.data ++ [cbrace]) ++ renderSegs rest := by
          simp
        rw [hsplit]
        have hno : ∀ c ∈ n.data ++ [cbrace], c ≠ obrace := by
          intro c hcm
          rcases List.mem_append.mp hcm with hcm | hcm
          · exact braceFree_no_open n.data hn c hcm
          · rw [List.mem_singleton] at hcm
            subst hcm
            decide
        rw [replaceL_append_no_open _ _ _ _ hno, ih hwrest]
        have hcond : ¬ (obrace :: (n.data ++ [cbrace])
            = (⟨obrace :: (tn ++ [cbrace])⟩ : String).data) := by
          intro hcontra
          apply heq
          have h3 : n.data ++ [cbrace] = tn ++ [cbrace] := (List.cons.inj hcontra).2
          exact List.append_cancel_right h3
        have h2 : substSegs (Seg.tok n :: rest) ⟨obrace :: (tn ++ [cbrace])⟩ v
            = Seg.tok n :: substSegs rest ⟨obrace :: (tn ++ [cbrace])⟩ v := by
          simp only [substSegs, List.map_cons, if_neg hcond]
        rw [h2]
        show obrace :: ((n.data ++ [cbrace])
            ++ renderSegs (substSegs rest ⟨obrace :: (tn ++ [cbrace])⟩ v))
          = (obrace :: (n.data ++ [cbrace]))
            ++ renderSegs (substSegs rest ⟨obrace :: (tn ++ [cbrace])⟩ v)
        rw [List.cons_append]

theorem wfSegs_substSegs (segs : List Seg) (t : String) (v : List Char)
    (hw : wfSegs segs = true) (hv : braceFreeL v = true) :
    wfSegs (substSegs segs t v) = true := by
  induction segs with
  | nil => rfl
  | cons sg rest ih =>
    have h1 : wfSeg sg = true := by
      simp only [wfSegs, List.all_cons, Bool.and_eq_true] at hw
      exact hw.1
    have h2 : wfSegs rest = true := by
      simp only [wfSegs, List.all_cons, Bool.and_eq_true] at hw
      exact hw.2
    cases sg with
    | lit l =>
      show (wfSeg (Seg.lit l) && wfSegs (substSegs rest t v)) = true
      rw [h1, ih h2, Bool.and_self]
    | tok n =>
      by_cases hc : obrace :: (n.data ++ [cbrace]) = t.data
      · have hs : substSegs (Seg.tok n :: rest) t v
            = Seg.lit ⟨v⟩ :: substSegs rest t v := by
          simp only [substSegs, List.map_cons, if_pos hc]
        rw [hs]
        show (wfSeg (Seg.lit ⟨v⟩) && wfSegs (substSegs rest t v)) = true
        rw [show wfSeg (Seg.lit ⟨v⟩) = braceFreeL v from rfl, hv, ih h2, Bool.and_self]
      · have hs : substSegs (Seg.tok n :: rest) t v
            = Seg.tok n :: substSegs rest t v := by
          simp only [substSegs, List.map_cons, if_neg hc]
        rw [hs]
        show (wfSeg (Seg.tok n) && wfSegs (substSegs rest t v)) = true
        rw [h1, ih h2, Bool.and_self]

/-- The whole substitution loop on a rendered well-formed template equals
the segment-level substitution image: each token occurrence becomes its
effective value (empty for values containing `Unknown`, the value itself
otherwise) and the literals are untouched. -/
theorem substituteTokens_renderSegs (tvs : List (String × String)) :
    ∀ (segs : List Seg), wfSegs segs = true →
    (∀ p ∈ tvs, ∃ tn : List Char,
        p.1.data = obrace :: (tn ++ [cbrace]) ∧ braceFreeL tn = true) →
    (∀ p ∈ tvs, braceFreeL p.2.data = true) →
    (substituteTokens ⟨renderSegs segs⟩ tvs).data = renderSegs (applyTvs segs tvs) := by
  induction tvs with
  | nil => intro segs _ _ _; rfl
  | cons p tvs2 ih =>
    intro segs hw hkeys hvals
    obtain ⟨tn, hpd, htb⟩ := hkeys p (List.mem_cons_self _ _)
    have hkey : p.1 = (⟨obrace :: (tn ++ [cbrace])⟩ : String) := congrArg String.mk hpd
    have hveff : braceFreeL (effVal p.2) = true := by
      unfold effVal
      by_cases hu : containsL "Unknown".data p.2.data = true
      · rw [if_pos hu]; rfl
      · rw [if_neg hu]; exact hvals p (List.mem_cons_self _ _)
    have hstep : substituteTokens ⟨renderSegs segs⟩ (p :: tvs2)
        = substituteTokens ⟨replaceL p.1.data (effVal p.2) (renderSegs segs)⟩ tvs2 := by
      unfold substituteTokens effVal
      rw [List.foldl_cons]
      by_cases hu : containsL "Unknown".data p.2.data = true
      · rw [if_pos hu, if_pos hu]
      · rw [if_neg hu, if_neg hu]
    have hmain : replaceL p.1.data (effVal p.2) (renderSegs segs)
        = renderSegs (substSegs segs p.1 (effVal p.2)) := by
      conv_lhs => rw [hpd]
      rw [replaceL_renderSegs tn (effVal p.2) segs hw htb, ← hkey]
    rw [hstep, hmain]
    have hrec := ih (substSegs segs p.1 (effVal p.2))
      (wfSegs_substSegs segs p.1 (effVal p.2) hw hveff)
      (fun q hq => hkeys q (List.mem_cons_of_mem _ hq))
      (fun q hq => hvals q (List.mem_cons_of_mem _ hq))
    rw [hrec]
    rfl

/-- A well-formed template with every token substituted renders brace-free. -/
theorem renderSegs_braceFree (segs : List Seg) (hw : wfSegs segs = true)
    (hnt : hasTok segs = false) : braceFreeL (renderSegs segs) = true := by
  induction segs with
  | nil => rfl
  | cons sg rest ih =>
    cases sg with
    | lit l =>
      have h1 : braceFreeL l.data = true := by
        simp only [wfSegs, List.all_cons, Bool.and_eq_true] at hw
        exact hw.1
      have h2 : wfSegs rest = true := by
        simp only [wfSegs, List.all_cons, Bool.and_eq_true] at hw
        exact hw.2
      have h3 : hasTok rest = false := by
        simp only [hasTok, List.any_cons] at hnt ⊢
        exact (Bool.or_eq_false_iff.mp hnt).2
      show braceFreeL (l.data ++ renderSegs rest) = true
      rw [show braceFreeL (l.data ++ renderSegs rest)
          = (braceFreeL l.data && braceFreeL (renderSegs rest)) from List.all_append,
        h1, ih h2 h3, Bool.and_self]
    | tok n =>
      exfalso
      simp [hasTok] at hnt

theorem mem_replaceAux (pat rep : List Char) :
    ∀ (s : List Char) (n : Nat) (c : Char),
      c ∈ replaceAux pat rep n s → c ∈ s ∨ c ∈ rep := by
  intro s
  induction s with
  | nil =>
    intro n c hc
    cases n <;> simp [replaceAux] at hc
  | cons d cs ih =>
    intro n c hc
    cases n with
    | succ k =>
      rcases ih k c hc with h | h
      · exact Or.inl (List.mem_cons_of_mem _ h)
      · exact Or.inr h
    | zero =>
      by_cases hcond : pat ≠ [] ∧ pat.isPrefixOf (d :: cs) = true
      · rw [show replaceAux pat rep 0 (d :: cs)
            = rep ++ replaceAux pat rep (pat.length - 1) cs from by
              rw [show replaceAux pat rep 0 (d :: cs)
                  = if pat ≠ [] ∧ pat.isPrefixOf (d :: cs) = true then
                      rep ++ replaceAux pat rep (pat.length - 1) cs
                    else d :: replaceAux pat rep 0 cs from rfl, if_pos hcond]] at hc
        rcases List.mem_append.mp hc with h | h
        · exact Or.inr h
        · rcases ih (pat.length - 1) c h with h2 | h2
          · exact Or.inl (List.mem_cons_of_mem _ h2)
          · exact Or.inr h2
      · rw [show replaceAux pat rep 0 (d :: cs)
            = d :: replaceAux pat rep 0 cs from by
              rw [show replaceAux pat rep 0 (d :: cs)
                  = if pat ≠ [] ∧ pat.isPrefixOf (d :: cs) = true then
                      rep ++ replaceAux pat rep (pat.length - 1) cs
                    else d :: replaceAux pat rep 0 cs from rfl, if_neg hcond]] at hc
        rcases List.mem_cons.mp hc with h | h
        · exact Or.inl (h ▸ List.mem_cons_self _ _)
        · rcases ih 0 c h with h2 | h2
          · exact Or.inl (List.mem_cons_of_mem _ h2)
          · exact Or.inr h2

theorem mem_rstripSlashL (s : List Char) (c : Char) (h : c ∈ rstripSlashL s) :
    c ∈ s := by
  unfold rstripSlashL at h
  rw [List.mem_reverse] at h
  have h2 := (List.dropWhile_sublist (l := s.reverse)
    (p := fun c => c = '/')).subset h
  rwa [List.mem_reverse] at h2

/-- The generated movie path is the collapsed pre-concatenation, stripped of
trailing slashes, with one slash appended. -/
theorem generate_new_path_data (root fmt : String) (tvs : List (String × String)) :
    (generate_new_path root fmt tvs).data
      = rstripSlashL (replaceL ['/', '/'] ['/'] (moviePreConcat root fmt tvs)) ++ ['/'] := by
  unfold generate_new_path moviePreConcat
  dsimp only
  by_cases hb : root.data.isPrefixOf (substituteTokens fmt tvs).data
  · rw [if_pos hb, if_pos hb]
  · rw [if_neg hb, if_neg hb]

/-- Brace-freeness survives the root-folder concatenation, the separator
collapse and the trailing-slash normalization of `generate_new_path`. -/
theorem generate_new_path_braceFree (root fmt : String) (tvs : List (String × String))
    (hroot : braceFreeL root.data = true)
    (hsub : braceFreeL (substituteTokens fmt tvs).data = true) :
    braceFreeL (generate_new_path root fmt tvs).data = true := by
  apply List.all_eq_true.mpr
  intro c hc
  apply decide_eq_true
  have hpre : ∀ d ∈ moviePreConcat root fmt tvs, d ≠ obrace ∧ d ≠ cbrace := by
    intro d hd
    unfold moviePreConcat at hd
    by_cases hb : root.data.isPrefixOf (substituteTokens fmt tvs).data
    · rw [if_pos hb] at hd
      exact of_decide_eq_true (List.all_eq_true.mp hsub d hd)
    · rw [if_neg hb] at hd
      rcases List.mem_append.mp hd with hd | hd
      · exact of_decide_eq_true (List.all_eq_true.mp hroot d hd)
      · rcases List.mem_cons.mp hd with hd | hd
        · subst hd
          exact ⟨by decide, by decide⟩
        · exact of_decide_eq_true (List.all_eq_true.mp hsub d hd)
  rw [generate_new_path_data root fmt tvs] at hc
  rcases List.mem_append.mp hc with hc | hc
  · have hc2 := mem_rstripSlashL _ _ hc
    have hc3 := mem_replaceAux ['/', '/'] ['/'] (moviePreConcat root fmt tvs) 0 c hc2
    rcases hc3 with hc3 | hc3
    · exact hpre c hc3
    · rw [List.mem_singleton] at hc3
      subst hc3
      exact ⟨by decide, by decide⟩
  · rw [List.mem_singleton] at hc
    subst hc
    exact ⟨by decide, by decide⟩

theorem wfSegs_applyTvs (tvs : List (String × String)) :
    ∀ segs, wfSegs segs = true → (∀ p ∈ tvs, braceFreeL p.2.data = true) →
    wfSegs (applyTvs segs tvs) = true := by
  induction tvs with
  | nil => intro segs hw _; exact hw
  | cons p tvs2 ih =>
    intro segs hw hvals
    have hveff : braceFreeL (effVal p.2) = true := by
      unfold effVal
      by_cases hu : containsL "Unknown".data p.2.data = true
      · rw [if_pos hu]; rfl
      · rw [if_neg hu]; exact hvals p (List.mem_cons_self _ _)
    exact ih (substSegs segs p.1 (effVal p.2))
      (wfSegs_substSegs segs p.1 (effVal p.2) hw hveff)
      (fun q hq => hvals q (List.mem_cons_of_mem _ hq))

/-- Claim C7, counterexample: a token whose resolved value is available (it
differs from the `Unknown-<token>` sentinel) but happens to be the string
`Unknown` is elided from the generated path rather than appearing as its
resolved value; and for the template `{{A}B}` with its single extracted
token resolving to a sentinel, the braced text `{B}` survives substitution,
so placeholder syntax remains in the output. -/
theorem C7_counterexample :
    resolveToken mUnknownTitle tokCleanTitle = "Unknown"
      ∧ resolveToken mUnknownTitle tokCleanTitle ≠ "Unknown-Movie CleanTitle"
      ∧ generate_new_path "/m" tokCleanTitle
          (extract_token_values mUnknownTitle [tokCleanTitle]) = "/m/"
      ∧ containsL "Unknown".data (generate_new_path "/m" tokCleanTitle
          (extract_token_values mUnknownTitle [tokCleanTitle])).data = false
      ∧ get_folder_name_tokens fmtWeird = [(⟨[obrace, 'A', cbrace]⟩ : String)]
      ∧ substituteTokens fmtWeird
          (extract_token_values mAlpha (get_folder_name_tokens fmtWeird))
          = (⟨[obrace, 'B', cbrace]⟩ : String)
      ∧ containsL [obrace] (generate_new_path "/r" fmtWeird
          (extract_token_values mAlpha (get_folder_name_tokens fmtWeird))).data = true := by
  decide

/-- Claim C7, amended: on templates that are interleavings of brace-free
literals and brace-delimited brace-free token names, with token values free
of braces, the substitution loop acts segment-wise — every occurrence of a
token whose value contains `Unknown` (in particular every sentinel value)
becomes empty, every other token occurrence becomes exactly its resolved
value, literals are untouched — and when every token segment was
substituted, no brace character (hence no placeholder syntax) remains in
the generated path. -/
theorem C7_amended (root : String) (segs : List Seg) (tvs : List (String × String))
    (hw : wfSegs segs = true)
    (hkeys : ∀ p ∈ tvs, ∃ tn : List Char,
        p.1.data = obrace :: (tn ++ [cbrace]) ∧ braceFreeL tn = true)
    (hvals : ∀ p ∈ tvs, braceFreeL p.2.data = true)
    (hroot : braceFreeL root.data = true) :
    (substituteTokens ⟨renderSegs segs⟩ tvs).data = renderSegs (applyTvs segs tvs)
      ∧ (hasTok (applyTvs segs tvs) = false →
          braceFreeL (generate_new_path root ⟨renderSegs segs⟩ tvs).data = true) := by
  have h1 := substituteTokens_renderSegs tvs segs hw hkeys hvals
  refine ⟨h1, fun hnt => ?_⟩
  apply generate_new_path_braceFree
  · exact hroot
  · rw [h1]
    exact renderSegs_braceFree _ (wfSegs_applyTvs tvs segs hw hvals) hnt

/-- Witness for the amended claim C7 at concrete inputs. -/
theorem C7_witness :
    (substituteTokens ⟨renderSegs segsMovie⟩ (extract_token_values mAlpha toksMovie)).data
        = renderSegs (applyTvs segsMovie (extract_token_values mAlpha toksMovie))
      ∧ (hasTok (applyTvs segsMovie (extract_token_values mAlpha toksMovie)) = false →
          braceFreeL (generate_new_path "/m" ⟨renderSegs segsMovie⟩
            (extract_token_values mAlpha toksMovie)).data = true) := by
  have htvs : extract_token_values mAlpha toksMovie
      = [(tokCleanTitle, "Alpha"), (tokReleaseYear, "2010")] := by decide
  refine C7_amended "/m" segsMovie (extract_token_values mAlpha toksMovie)
    (by decide) ?_ ?_ (by decide)
  · intro p hp
    rw [htvs] at hp
    rcases List.mem_cons.mp hp with h | h
    · exact ⟨"Movie CleanTitle".data, by rw [h]; decide, by decide⟩
    · rcases List.mem_cons.mp h with h2 | h2
      · exact ⟨"Release Year".data, by rw [h2]; decide, by decide⟩
      · simp at h2
  · rw [htvs]
    decide

/-- Claim C10: the sentinel is detected by substring — any token whose
resolved value contains `Unknown` anywhere is elided from the output exactly
as if unavailable; concretely, the available title `Unknown!` cleans to
`Unknown` (which differs from the sentinel `Unknown-Movie CleanTitle`) and
the token is removed from the generated path. -/
theorem C10_thm (segs : List Seg) (t v : String) (tn : List Char)
    (hw : wfSegs segs = true)
    (ht : t.data = obrace :: (tn ++ [cbrace])) (htb : braceFreeL tn = true)
    (hu : containsL "Unknown".data v.data = true) :
    (substituteTokens ⟨renderSegs segs⟩ [(t, v)]).data
        = renderSegs (substSegs segs t [])
      ∧ generate_clean_title "Unknown!" = "Unknown"
      ∧ resolveToken mUnknownTitle tokCleanTitle = "Unknown"
      ∧ resolveToken mUnknownTitle tokCleanTitle ≠ "Unknown-Movie CleanTitle"
      ∧ generate_new_path "/m" tokCleanTitle
          (extract_token_values mUnknownTitle [tokCleanTitle]) = "/m/" := by
  refine ⟨?_, by decide, by decide, by decide, by decide⟩
  have hstep : substituteTokens ⟨renderSegs segs⟩ [(t, v)]
      = ⟨replaceL t.data [] (renderSegs segs)⟩ := by
    unfold substituteTokens
    rw [List.foldl_cons]
    dsimp only
    rw [if_pos hu]
    rfl
  rw [hstep]
  show replaceL t.data [] (renderSegs segs) = renderSegs (substSegs segs t [])
  conv_lhs => rw [ht]
  rw [replaceL_renderSegs tn [] segs hw htb,
    show (⟨obrace :: (tn ++ [cbrace])⟩ : String) = t from (congrArg String.mk ht).symm]

/-- Witness for claim C10 at concrete inputs. -/
theorem C10_witness :
    (substituteTokens ⟨renderSegs [Seg.tok "Movie CleanTitle"]⟩
        [(tokCleanTitle, "Unknown")]).data
        = renderSegs (substSegs [Seg.tok "Movie CleanTitle"] tokCleanTitle [])
      ∧ generate_clean_title "Unknown!" = "Unknown"
      ∧ resolveToken mUnknownTitle tokCleanTitle = "Unknown"
      ∧ resolveToken mUnknownTitle tokCleanTitle ≠ "Unknown-Movie CleanTitle"
      ∧ generate_new_path "/m" tokCleanTitle
          (extract_token_values mUnknownTitle [tokCleanTitle]) = "/m/" :=
  C10_thm [Seg.tok "Movie CleanTitle"] tokCleanTitle "Unknown" "Movie CleanTitle".data
    (by decide) (by decide) (by decide) (by decide)

/-! Lemmas towards claim C8: what the single-pass separator collapse and
trailing-slash normalization do and do not guarantee. -/

theorem dropWhile_head_false {α : Type} (p : α → Bool) (l : List α) :
    ∀ c cs, l.dropWhile p = c :: cs → p c = false := by
  induction l with
  | nil => intro c cs h; simp at h
  | cons a l2 ih =>
    intro c cs h
    by_cases hp : p a = true
    · rw [List.dropWhile_cons_of_pos hp] at h
      exact ih c cs h
    · rw [List.dropWhile_cons_of_neg hp] at h
      rw [← (List.cons.inj h).1]
      exact any_eq_false_of_ne_true hp

theorem rstripSlashL_last (s : List Char) :
    rstripSlashL s = [] ∨ ∃ c cs, rstripSlashL s = cs ++ [c] ∧ c ≠ '/' := by
  unfold rstripSlashL
  cases hd : s.reverse.dropWhile (fun c => c = '/') with
  | nil => left; rfl
  | cons c cs =>
    right
    refine ⟨c, cs.reverse, ?_, ?_⟩
    · rw [List.reverse_cons]
    · have := dropWhile_head_false _ _ c cs hd
      simpa using this

theorem rstripSlashL_spec (s : List Char) :
    ∃ t, s = rstripSlashL s ++ t := by
  refine ⟨(s.reverse.takeWhile (fun c => c = '/')).reverse, ?_⟩
  conv_lhs => rw [← s.reverse_reverse,
    ← List.takeWhile_append_dropWhile (p := fun c => c = '/') (l := s.reverse)]
  rw [List.reverse_append]
  rfl

/-- The replacement of `//` by `/` starts with a non-slash whenever its
input does. -/
theorem replaceL_head_not_slash (s : List Char)
    (h : ∀ d, s.head? = some d → d ≠ '/') :
    (['/'] : List Char).isPrefixOf (replaceL ['/', '/'] ['/'] s) = false := by
  cases s with
  | nil => rfl
  | cons d ds =>
    have hd : d ≠ '/' := h d rfl
    have hbeq : ('/' == d) = false := beq_eq_false_iff_ne.mpr fun he => hd he.symm
    have hpre : (['/', '/'] : List Char).isPrefixOf (d :: ds) = false := by
      show (('/' == d) && (['/'] : List Char).isPrefixOf ds) = false
      rw [hbeq, Bool.false_and]
    rw [replaceL_cons_neg _ _ _ _ (fun hand => ne_true_of_eq_false hpre hand.2)]
    have hstep : (['/'] : List Char).isPrefixOf (d :: replaceL ['/', '/'] ['/'] ds)
        = (('/' == d) && ([] : List Char).isPrefixOf (replaceL ['/', '/'] ['/'] ds)) := rfl
    rw [hstep, hbeq, Bool.false_and]

/-- The single-pass collapse leaves no `//` when the input has no `///`. -/
theorem replace_dslash_no_dup : ∀ (n : Nat) (s : List Char), s.length ≤ n →
    containsL ['/', '/', '/'] s = false →
    containsL ['/', '/'] (replaceL ['/', '/'] ['/'] s) = false := by
  intro n
  induction n with
  | zero =>
    intro s hlen _
    have hs : s = [] := List.eq_nil_of_length_eq_zero (Nat.le_zero.mp hlen)
    subst hs
    rfl
  | succ k ih =>
    intro s hlen h
    cases s with
    | nil => rfl
    | cons c1 s1 =>
      cases s1 with
      | nil =>
        simp [replaceL, replaceAux, containsL, List.isPrefixOf]
      | cons c2 rest =>
        rw [containsL_cons] at h
        have hfst := (Bool.or_eq_false_iff.mp h).1
        have htail : containsL ['/', '/', '/'] (c2 :: rest) = false :=
          (Bool.or_eq_false_iff.mp h).2
        have hlen2 : (c2 :: rest).length ≤ k := by
          simp only [List.length_cons] at hlen ⊢
          omega
        by_cases h1 : c1 = '/'
        · by_cases h2 : c2 = '/'
          · subst h1; subst h2
            have hrest3 : containsL ['/', '/', '/'] rest = false := by
              rw [containsL_cons] at htail
              exact (Bool.or_eq_false_iff.mp htail).2
            have hlenr : rest.length ≤ k := by
              simp only [List.length_cons] at hlen2
              omega
            have hheadr : ∀ d, rest.head? = some d → d ≠ '/' := by
              intro d hdr he
              subst he
              cases rest with
              | nil => simp at hdr
              | cons e es =>
                have : e = '/' := by
                  have := (Option.some.inj hdr)
                  exact this.symm ▸ rfl
                subst this
                simp [List.isPrefixOf] at hfst
            have hpre2 : (['/', '/'] : List Char).isPrefixOf ('/' :: '/' :: rest) = true := by
              simp [List.isPrefixOf]
            rw [replaceL_cons_pos _ _ _ _ (by simp) hpre2]
            show containsL ['/', '/'] ('/' :: replaceL ['/', '/'] ['/'] rest) = false
            rw [containsL_cons]
            apply Bool.or_eq_false_iff.mpr
            constructor
            · show (('/' == '/') && (['/'] : List Char).isPrefixOf
                  (replaceL ['/', '/'] ['/'] rest)) = false
              rw [replaceL_head_not_slash rest hheadr, Bool.and_false]
            · exact ih rest hlenr hrest3
          · subst h1
            have hbeq2 : ('/' == c2) = false := beq_eq_false_iff_ne.mpr fun he => h2 he.symm
            have hpre : (['/', '/'] : List Char).isPrefixOf ('/' :: c2 :: rest) = false := by
              show (('/' == '/') && (['/'] : List Char).isPrefixOf (c2 :: rest)) = false
              have : (['/'] : List Char).isPrefixOf (c2 :: rest) = false := by
                show (('/' == c2) && (([] : List Char).isPrefixOf rest)) = false
                rw [hbeq2, Bool.false_and]
              rw [this, Bool.and_false]
            rw [replaceL_cons_neg _ _ _ _ (fun hand => ne_true_of_eq_false hpre hand.2)]
            rw [containsL_cons]
            apply Bool.or_eq_false_iff.mpr
            constructor
            · show (('/' == '/') && (['/'] : List Char).isPrefixOf
                  (replaceL ['/', '/'] ['/'] (c2 :: rest))) = false
              rw [replaceL_head_not_slash (c2 :: rest)
                (fun d hdr => (Option.some.inj hdr) ▸ h2), Bool.and_false]
            · exact ih (c2 :: rest) hlen2 htail
        · have hbeq1 : ('/' == c1) = false := beq_eq_false_iff_ne.mpr fun he => h1 he.symm
          have hpre : (['/', '/'] : List Char).isPrefixOf (c1 :: c2 :: rest) = false := by
            show (('/' == c1) && (['/'] : List Char).isPrefixOf (c2 :: rest)) = false
            rw [hbeq1, Bool.false_and]
          rw [replaceL_cons_neg _ _ _ _ (fun hand => ne_true_of_eq_false hpre hand.2)]
          rw [containsL_cons]
          apply Bool.or_eq_false_iff.mpr
          constructor
          · show (('/' == c1) && (['/'] : List Char).isPrefixOf
                (replaceL ['/', '/'] ['/'] (c2 :: rest))) = false
            rw [hbeq1, Bool.false_and]
          · exact ih (c2 :: rest) hlen2 htail

/-- Appending one slash to a `//`-free string not ending in a slash keeps it
`//`-free. -/
theorem no_dup_append_slash : ∀ (body : List Char),
    containsL ['/', '/'] body = false →
    (body = [] ∨ ∃ c cs, body = cs ++ [c] ∧ c ≠ '/') →
    containsL ['/', '/'] (body ++ ['/']) = false := by
  intro body
  induction body with
  | nil => intro _ _; rfl
  | cons c body2 ih =>
    intro hnd hl
    rw [List.cons_append, containsL_cons]
    apply Bool.or_eq_false_iff.mpr
    rw [containsL_cons] at hnd
    have hfst := (Bool.or_eq_false_iff.mp hnd).1
    have htl := (Bool.or_eq_false_iff.mp hnd).2
    constructor
    · by_cases hc : c = '/'
      · subst hc
        cases body2 with
        | nil =>
          rcases hl with h | ⟨cl, cs, hb, hcl⟩
          · simp at h
          · exfalso
            cases cs with
            | nil =>
              exact hcl (List.cons.inj hb.symm).1
            | cons x xs => simp at hb
        | cons d body3 =>
          have hd : ('/' == d) = false := by
            by_cases hdd : d = '/'
            · subst hdd
              exfalso
              simp [List.isPrefixOf] at hfst
            · exact beq_eq_false_iff_ne.mpr fun he => hdd he.symm
          show (('/' == '/')
            && (['/'] : List Char).isPrefixOf (d :: (body3 ++ ['/']))) = false
          have hstep : (['/'] : List Char).isPrefixOf (d :: (body3 ++ ['/']))
              = (('/' == d) && ([] : List Char).isPrefixOf (body3 ++ ['/'])) := rfl
          rw [hstep, hd, Bool.false_and, Bool.and_false]
      · show (('/' == c) && (['/'] : List Char).isPrefixOf (body2 ++ ['/'])) = false
        rw [show ('/' == c) = false from beq_eq_false_iff_ne.mpr fun he => hc he.symm,
          Bool.false_and]
    · apply ih htl
      rcases hl with h | ⟨cl, cs, hb, hcl⟩
      · simp at h
      · cases cs with
        | nil =>
          left
          have hlen := congrArg List.length hb
          simp at hlen
          exact hlen
        | cons x xs =>
          right
          rw [List.cons_append] at hb
          exact ⟨cl, xs, (List.cons.inj hb).2, hcl⟩

theorem endsWithOneSlash_mk (body : List Char)
    (h : body = [] ∨ ∃ c cs, body = cs ++ [c] ∧ c ≠ '/') :
    endsWithOneSlash ⟨body ++ ['/']⟩ = true := by
  unfold endsWithOneSlash
  rcases h with h | ⟨c, cs, hb, hc⟩
  · subst h; rfl
  · subst hb
    have hrev : (((cs ++ [c]) ++ ['/']).reverse) = '/' :: c :: cs.reverse := by
      rw [List.reverse_append, List.reverse_append]
      simp
    dsimp only
    rw [hrev]
    simp [hc]

/-- The generated series path is the joined body with one slash appended. -/
theorem generate_series_path_data (root fmt : String) (tvs : List (String × String)) :
    (generate_series_path root fmt tvs).data = seriesJoined root fmt tvs ++ ['/'] := by
  unfold generate_series_path seriesJoined
  dsimp only
  simp

/-- Claim C8, counterexample: the single-pass `//` collapse leaves a
duplicated separator behind a triple slash in the movie generator, and the
series generator ends with two separators when the substituted template is
empty — refuting "no duplicated path separators anywhere" and "ends with
exactly one trailing separator" as universal statements. -/
theorem C8_counterexample :
    generate_new_path "r" "a///b" [] = "r/a//b/"
      ∧ containsL ['/', '/'] (generate_new_path "r" "a///b" []).data = true
      ∧ generate_series_path "/r" "" [] = "/r//"
      ∧ endsWithOneSlash (generate_series_path "/r" "" []) = false := by
  decide

/-- Claim C8, amended: the movie generator always ends with exactly one
trailing separator, and contains no duplicated separator provided its
pre-collapse concatenation contains no run of three separators (the single
`//`-collapse pass removes isolated pairs only); the series generator
guarantees both only when its joined body is itself free of duplicated
separators and the substituted template is nonempty after stripping. -/
theorem C8_amended :
    (∀ (root fmt : String) (tvs : List (String × String)),
      endsWithOneSlash (generate_new_path root fmt tvs) = true)
    ∧ (∀ (root fmt : String) (tvs : List (String × String)),
        containsL ['/', '/', '/'] (moviePreConcat root fmt tvs) = false →
        containsL ['/', '/'] (generate_new_path root fmt tvs).data = false)
    ∧ (∀ (root fmt : String) (tvs : List (String × String)),
        containsL ['/', '/'] (seriesJoined root fmt tvs) = false →
        rstripSlashL (substituteTokens fmt tvs).data ≠ [] →
        containsL ['/', '/'] (generate_series_path root fmt tvs).data = false
          ∧ endsWithOneSlash (generate_series_path root fmt tvs) = true) := by
  refine ⟨?_, ?_, ?_⟩
  · intro root fmt tvs
    have hgen := generate_new_path_data root fmt tvs
    have hcast : generate_new_path root fmt tvs
        = ⟨rstripSlashL (replaceL ['/', '/'] ['/'] (moviePreConcat root fmt tvs)) ++ ['/']⟩ :=
      congrArg String.mk hgen
    rw [hcast]
    exact endsWithOneSlash_mk _ (rstripSlashL_last _)
  · intro root fmt tvs h
    rw [generate_new_path_data root fmt tvs]
    have hrep := replace_dslash_no_dup (moviePreConcat root fmt tvs).length
      (moviePreConcat root fmt tvs) (le_refl _) h
    obtain ⟨t, ht⟩ := rstripSlashL_spec (replaceL ['/', '/'] ['/'] (moviePreConcat root fmt tvs))
    have hstrip : containsL ['/', '/']
        (rstripSlashL (replaceL ['/', '/'] ['/'] (moviePreConcat root fmt tvs))) = false := by
      apply containsL_prefix_false _ _ t
      rw [← ht]
      exact hrep
    exact no_dup_append_slash _ hstrip (rstripSlashL_last _)
  · intro root fmt tvs h hne
    have hlast : seriesJoined root fmt tvs = [] ∨
        ∃ c cs, seriesJoined root fmt tvs = cs ++ [c] ∧ c ≠ '/' := by
      rcases rstripSlashL_last (substituteTokens fmt tvs).data with h0 | ⟨c, cs, hsp, hc⟩
      · exact absurd h0 hne
      · right
        refine ⟨c, rstripSlashL root.data ++ '/' :: cs, ?_, hc⟩
        unfold seriesJoined
        rw [hsp, ← List.cons_append, List.append_assoc]
    constructor
    · rw [generate_series_path_data root fmt tvs]
      exact no_dup_append_slash _ h hlast
    · have hcast : generate_series_path root fmt tvs
          = ⟨seriesJoined root fmt tvs ++ ['/']⟩ :=
        congrArg String.mk (generate_series_path_data root fmt tvs)
      rw [hcast]
      exact endsWithOneSlash_mk _ hlast

/-- Witness for the amended claim C8 at concrete inputs. -/
theorem C8_witness :
    endsWithOneSlash (generate_new_path "/m" fmtMovie (extract_token_values mAlpha toksMovie))
        = true
      ∧ containsL ['/', '/'] (generate_new_path "/m" fmtMovie
          (extract_token_values mAlpha toksMovie)).data = false
      ∧ (containsL ['/', '/'] (generate_series_path "/tv" tokSeriesTitleYear
            (extract_series_token_values sOne)).data = false
        ∧ endsWithOneSlash (generate_series_path "/tv" tokSeriesTitleYear
            (extract_series_token_values sOne)) = true) :=
  ⟨C8_amended.1 "/m" fmtMovie (extract_token_values mAlpha toksMovie),
   C8_amended.2.1 "/m" fmtMovie (extract_token_values mAlpha toksMovie) (by decide),
   C8_amended.2.2 "/tv" tokSeriesTitleYear (extract_series_token_values sOne)
     (by decide) (by decide)⟩

/-! Lemmas towards claim C2: what the log scan of the move verifier
actually detects. -/

theorem recordMovedTitle_some (th : Int) (log : LogRecord) (t0 : String)
    (h : recordMovedTitle th log = some t0) :
    th ≤ log.time
      ∧ containsL movedPhrase (lowerL log.message.data) = true
      ∧ normalize_title ⟨stripL (splitFirstL movedPhrase (lowerL log.message.data))⟩ = t0 := by
  unfold recordMovedTitle at h
  dsimp only at h
  split_ifs at h with h1 h2
  exact ⟨by omega, h2, Option.some.inj h⟩

theorem addMoved_mem (e mv : List String) (t t0 : String) :
    t0 ∈ addMoved e mv t ↔ t0 ∈ mv ∨ (t0 ∈ e ∧ t = t0) := by
  unfold addMoved
  by_cases hc : t ∈ e ∧ t ∉ mv
  · rw [if_pos hc, List.mem_append, List.mem_singleton]
    constructor
    · rintro (h | h)
      · exact Or.inl h
      · exact Or.inr ⟨h ▸ hc.1, h.symm⟩
    · rintro (h | ⟨_, ht⟩)
      · exact Or.inl h
      · exact Or.inr ht.symm
  · rw [if_neg hc]
    constructor
    · exact Or.inl
    · rintro (h | ⟨he, ht⟩)
      · exact h
      · subst ht
        rcases not_and_or.mp hc with h2 | h2
        · exact absurd he h2
        · exact not_not.mp h2

theorem scanPage_mem_iff (th : Int) (e : List String) :
    ∀ (page : List LogRecord) (mv : List String) (t0 : String),
    t0 ∈ scanPage th e mv page
      ↔ t0 ∈ mv ∨ (t0 ∈ e ∧ ∃ log ∈ page, recordMovedTitle th log = some t0) := by
  intro page
  induction page with
  | nil =>
    intro mv t0
    simp [scanPage]
  | cons log rest ih =>
    intro mv t0
    have hstep : scanPage th e mv (log :: rest)
        = scanPage th e
            (match recordMovedTitle th log with
              | some t => addMoved e mv t
              | none => mv) rest := by
      unfold scanPage
      rw [List.foldl_cons]
    rw [hstep, ih]
    cases hr : recordMovedTitle th log with
    | none =>
      constructor
      · rintro (h | ⟨he, l, hl, hrec⟩)
        · exact Or.inl h
        · exact Or.inr ⟨he, l, List.mem_cons_of_mem _ hl, hrec⟩
      · rintro (h | ⟨he, l, hl, hrec⟩)
        · exact Or.inl h
        · rcases List.mem_cons.mp hl with h2 | h2
          · subst h2
            rw [hr] at hrec
            exact absurd hrec (by simp)
          · exact Or.inr ⟨he, l, h2, hrec⟩
    | some t =>
      rw [addMoved_mem]
      constructor
      · rintro ((h | ⟨he, ht⟩) | ⟨he, l, hl, hrec⟩)
        · exact Or.inl h
        · exact Or.inr ⟨he, log, List.mem_cons_self _ _, ht ▸ hr⟩
        · exact Or.inr ⟨he, l, List.mem_cons_of_mem _ hl, hrec⟩
      · rintro (h | ⟨he, l, hl, hrec⟩)
        · exact Or.inl (Or.inl h)
        · rcases List.mem_cons.mp hl with h2 | h2
          · subst h2
            rw [hr] at hrec
            exact Or.inl (Or.inr ⟨he, Option.some.inj hrec⟩)
          · exact Or.inr ⟨he, l, h2, hrec⟩

theorem scanPages_mem (th : Int) (e : List String) :
    ∀ (n : Nat) (pages : List (List LogRecord)) (mv : List String) (t0 : String),
    t0 ∈ (scanPages th e n mv pages).1 →
    t0 ∈ mv ∨ ∃ page ∈ pages.take n, ∃ log ∈ page, recordMovedTitle th log = some t0 := by
  intro n
  induction n with
  | zero => intro pages mv t0 h; exact Or.inl h
  | succ k ih =>
    intro pages mv t0 h
    cases pages with
    | nil => exact Or.inl h
    | cons page rest =>
      have hunf : scanPages th e (k + 1) mv (page :: rest)
          = if page.isEmpty then (mv, false)
            else if supersetCheck e (scanPage th e mv page) = true
              then (scanPage th e mv page, true)
              else scanPages th e k (scanPage th e mv page) rest := rfl
      rw [hunf] at h
      by_cases hp : page.isEmpty
      · rw [if_pos hp] at h
        exact Or.inl h
      · rw [if_neg hp] at h
        have hlift : ∀ l0, l0 ∈ scanPage th e mv page →
            l0 ∈ mv ∨ ∃ pg ∈ (page :: rest).take (k + 1),
              ∃ log ∈ pg, recordMovedTitle th log = some l0 := by
          intro l0 hl0
          rcases (scanPage_mem_iff th e page mv l0).mp hl0 with h2 | ⟨_, l, hl, hrec⟩
          · exact Or.inl h2
          · exact Or.inr ⟨page, by rw [List.take_succ_cons]; exact List.mem_cons_self _ _,
              l, hl, hrec⟩
        by_cases hs : supersetCheck e (scanPage th e mv page) = true
        · rw [if_pos hs] at h
          exact hlift t0 h
        · rw [if_neg hs] at h
          rcases ih rest (scanPage th e mv page) t0 h with h2 | ⟨pg, hpg, l, hl, hrec⟩
          · exact hlift t0 h2
          · exact Or.inr ⟨pg, by rw [List.take_succ_cons]; exact List.mem_cons_of_mem _ hpg,
              l, hl, hrec⟩

theorem scanPages_success (th : Int) (e : List String) :
    ∀ (n : Nat) (pages : List (List LogRecord)) (mv : List String),
    (scanPages th e n mv pages).2 = true →
    supersetCheck e (scanPages th e n mv pages).1 = true := by
  intro n
  induction n with
  | zero => intro pages mv h; exact absurd h (by simp [scanPages])
  | succ k ih =>
    intro pages mv h
    cases pages with
    | nil => exact absurd h (by simp [scanPages])
    | cons page rest =>
      have hunf : scanPages th e (k + 1) mv (page :: rest)
          = if page.isEmpty then (mv, false)
            else if supersetCheck e (scanPage th e mv page) = true
              then (scanPage th e mv page, true)
              else scanPages th e k (scanPage th e mv page) rest := rfl
      rw [hunf] at h ⊢
      by_cases hp : page.isEmpty
      · rw [if_pos hp] at h
        exact absurd h (by simp)
      · rw [if_neg hp] at h ⊢
        by_cases hs : supersetCheck e (scanPage th e mv page) = true
        · rw [if_pos hs] at h ⊢
          exact hs
        · rw [if_neg hs] at h ⊢
          exact ih rest (scanPage th e mv page) h

theorem waitRetries_sound (th : Int) (e : List String)
    (fetch : Nat → List (List LogRecord)) :
    ∀ (left r : Nat) (mv : List String),
    waitRetries th e fetch r left mv = true →
    ∀ t0 ∈ e, t0 ∈ mv ∨ ∃ r2, r ≤ r2 ∧ r2 < r + left
      ∧ ∃ page ∈ (fetch r2).take 3, ∃ log ∈ page, recordMovedTitle th log = some t0 := by
  intro left
  induction left with
  | zero =>
    intro r mv h
    exact absurd h (by simp [waitRetries])
  | succ k ih =>
    intro r mv h t0 ht0
    have hunf : waitRetries th e fetch r (k + 1) mv
        = if (scanPages th e 3 mv (fetch r)).2 = true then true
          else if r ≥ 3 ∧ (scanPages th e 3 mv (fetch r)).1 = [] then false
          else waitRetries th e fetch (r + 1) k (scanPages th e 3 mv (fetch r)).1 := rfl
    rw [hunf] at h
    by_cases h1 : (scanPages th e 3 mv (fetch r)).2 = true
    · have hsup := scanPages_success th e 3 (fetch r) mv h1
      have hmem : t0 ∈ (scanPages th e 3 mv (fetch r)).1 :=
        of_decide_eq_true (List.all_eq_true.mp hsup t0 ht0)
      rcases scanPages_mem th e 3 (fetch r) mv t0 hmem with h2 | ⟨pg, hpg, l, hl, hrec⟩
      · exact Or.inl h2
      · exact Or.inr ⟨r, le_refl r, by omega, pg, hpg, l, hl, hrec⟩
    · rw [if_neg h1] at h
      by_cases h2 : r ≥ 3 ∧ (scanPages th e 3 mv (fetch r)).1 = []
      · rw [if_pos h2] at h
        exact absurd h (by simp)
      · rw [if_neg h2] at h
        rcases ih (r + 1) _ h t0 ht0 with h3 | ⟨r2, hr2a, hr2b, rest⟩
        · rcases scanPages_mem th e 3 (fetch r) mv t0 h3 with h4 | ⟨pg, hpg, l, hl, hrec⟩
          · exact Or.inl h4
          · exact Or.inr ⟨r, le_refl r, by omega, pg, hpg, l, hl, hrec⟩
        · exact Or.inr ⟨r2, by omega, by omega, rest⟩

theorem mem_foldl_dedup (l : List String) :
    ∀ (acc : List String) (a : String),
    a ∈ l.foldl (fun acc t => if t ∈ acc then acc else acc ++ [t]) acc
      ↔ a ∈ acc ∨ a ∈ l := by
  induction l with
  | nil => intro acc a; simp
  | cons x xs ih =>
    intro acc a
    rw [List.foldl_cons, ih]
    by_cases hx : x ∈ acc
    · rw [if_pos hx]
      constructor
      · rintro (h | h)
        · exact Or.inl h
        · exact Or.inr (List.mem_cons_of_mem _ h)
      · rintro (h | h)
        · exact Or.inl h
        · rcases List.mem_cons.mp h with h2 | h2
          · exact Or.inl (h2 ▸ hx)
          · exact Or.inr h2
    · rw [if_neg hx]
      constructor
      · rintro (h | h)
        · rcases List.mem_append.mp h with h2 | h2
          · exact Or.inl h2
          · exact Or.inr (List.mem_cons.mpr (Or.inl (List.mem_singleton.mp h2)))
        · exact Or.inr (List.mem_cons_of_mem _ h)
      · rintro (h | h)
        · exact Or.inl (List.mem_append.mpr (Or.inl h))
        · rcases List.mem_cons.mp h with h2 | h2
          · exact Or.inl (List.mem_append.mpr (Or.inr (List.mem_singleton.mpr h2)))
          · exact Or.inr h2

theorem mem_expectedTitles (processed : List Movie) (m : Movie) (t : String)
    (hm : m ∈ processed) (ht : m.title = some t) :
    normalize_title t ∈ expectedTitles processed := by
  unfold expectedTitles dedupFirst
  rw [mem_foldl_dedup]
  right
  exact List.mem_filterMap.mpr ⟨m, hm, by rw [ht]; rfl⟩

/-- Claim C2, amended: the scan considers only records within the last 12
hours, and marks a title moved exactly when an in-window record contains
`moved successfully to` and its normalized subject equals the normalized
expected title — exact equality after case/diacritic/punctuation folding,
not a fuzzy 85% comparison (the fuzzy helper exists but is never called).
Whenever the verifier reports success, every processed title has such a
record among the fetched pages. -/
theorem C2_thm :
    (∀ (th : Int) (e mv : List String) (page : List LogRecord) (t0 : String),
      t0 ∈ scanPage th e mv page
        ↔ t0 ∈ mv ∨ (t0 ∈ e ∧ ∃ log ∈ page, recordMovedTitle th log = some t0))
    ∧ (∀ (now : Int) (processed : List Movie) (fetch : Nat → List (List LogRecord)),
        wait_for_movie_moves now processed fetch = true →
        ∀ m ∈ processed, ∀ t, m.title = some t →
        ∃ r, r < 5 ∧ ∃ page ∈ (fetch r).take 3, ∃ log ∈ page,
          now - 43200 ≤ log.time
          ∧ containsL movedPhrase (lowerL log.message.data) = true
          ∧ normalize_title ⟨stripL (splitFirstL movedPhrase (lowerL log.message.data))⟩
              = normalize_title t) := by
  constructor
  · intro th e mv page t0
    exact scanPage_mem_iff th e page mv t0
  · intro now processed fetch hw m hm t ht
    unfold wait_for_movie_moves at hw
    dsimp only at hw
    by_cases hp : processed.isEmpty
    · rw [if_pos hp] at hw
      exact absurd hw (by simp)
    · rw [if_neg hp] at hw
      by_cases he : (expectedTitles processed).isEmpty
      · rw [if_pos he] at hw
        exact absurd hw (by simp)
      · rw [if_neg he] at hw
        have hsound := waitRetries_sound (now - 43200) (expectedTitles processed)
          fetch 5 0 [] hw (normalize_title t) (mem_expectedTitles processed m t hm ht)
        rcases hsound with h0 | ⟨r2, _, hr2, pg, hpg, l, hl, hrec⟩
        · simp at h0
        · obtain ⟨h1, h2, h3⟩ := recordMovedTitle_some _ _ _ hrec
          exact ⟨r2, by omega, pg, hpg, l, hl, h1, h2, h3⟩

/-- Claim C2, counterexample: an in-window record whose subject fuzzily
matches the expected title at 91 ≥ 85 (the subject `Movie` against the
title `Movies`) is not detected by the verifier, because the scan requires
exact equality of normalized titles, not a fuzzy comparison. -/
theorem C2_counterexample :
    wait_for_movie_moves 1000000 [mMovies] fetchMovieMoved = false
      ∧ recordMovedTitle (1000000 - 43200) recMovieMoved = some "movie"
      ∧ normalize_title "Movies" = "movies"
      ∧ 85 ≤ fuzzScore (normalize_title "Movie") (normalize_title "Movies")
      ∧ is_title_match "movie" "movies" 85 = true := by
  decide

/-- Witness for the amended claim C2 at concrete inputs. -/
theorem C2_witness :
    ("alpha" ∈ scanPage (1000000 - 43200) ["alpha"] [] [recAlphaMoved]
        ↔ "alpha" ∈ ([] : List String)
          ∨ ("alpha" ∈ ["alpha"]
            ∧ ∃ log ∈ [recAlphaMoved],
                recordMovedTitle (1000000 - 43200) log = some "alpha"))
      ∧ ∃ r, r < 5 ∧ ∃ page ∈ (fetchAlphaMoved r).take 3, ∃ log ∈ page,
          1000000 - 43200 ≤ log.time
          ∧ containsL movedPhrase (lowerL log.message.data) = true
          ∧ normalize_title ⟨stripL (splitFirstL movedPhrase (lowerL log.message.data))⟩
              = normalize_title "Alpha" :=
  ⟨C2_thm.1 (1000000 - 43200) ["alpha"] [] [recAlphaMoved] "alpha",
   C2_thm.2 1000000 [mAlphaBare] fetchAlphaMoved (by decide) mAlphaBare
     (List.mem_singleton.mpr rfl) "Alpha" rfl⟩

end MMT
